import Mathlib

set_option maxRecDepth 40000

/-!
Verification development for the lone lisp runtime (src/lone.c).

The definitions below are a shallow embedding of the C source. Machine
integers are modelled as `Nat`/`Int` with explicit reduction modulo `2 ^ 64`
where the C `unsigned long` / `long` arithmetic wraps. Nullable C pointers to
values are modelled by the dedicated constructor `Value.vnull`. Loops of the
C source are modelled as fuel-indexed recursions; every call site passes fuel
that is provably sufficient (comments at each definition say why), so the
fuel-exhaustion branches are unreachable on the inputs the theorems speak
about. Out-of-bounds array reads (which do occur in the probe loop of
`lone_table_entry_find_index_for`) are modelled by `List.getD` returning an
empty entry, and are additionally reported through the list of visited
indices so that theorems can detect them.
-/

namespace Lone

/-- The FNV-1a parameters for 64-bit longs, from the source header. -/
def FNV_PRIME : Nat := 0x00000100000001B3

/-- The FNV-1a offset basis for 64-bit longs, from the source header. -/
def FNV_OFFSET_BASIS : Nat := 0xCBF29CE484222325

/-- Modulus of the 64-bit machine words used by the interpreter. -/
def U64 : Nat := 2 ^ 64

/-- Two's-complement wraparound of a signed 64-bit long, used wherever the C
source performs arithmetic on `long` values. -/
def wrap64 (x : Int) : Int := (x + 2 ^ 63) % 2 ^ 64 - 2 ^ 63

/-- The tagged union `struct lone_value` of the source. A C pointer to a
value may be null; nullability is embedded by the extra `vnull` constructor
rather than by `Option`, matching the many places where the source stores and
tests null pointers (`first`, `rest`, table keys/values, prototypes). A table
value carries `count`, `capacity`, the entry array (a list of key/value
pairs, a null key marking an empty slot) and the prototype pointer. -/
inductive Value : Type where
  | vnull : Value
  | list (first rest : Value) : Value
  | table (count capacity : Nat) (entries : List (Value × Value)) (prototype : Value) : Value
  | symbol (bs : List Nat) : Value
  | text (bs : List Nat) : Value
  | bytes (bs : List Nat) : Value
  | integer (n : Int) : Value
  | pointer (n : Int) : Value


/-- Null-pointer test on an embedded value pointer. -/
def Value.isNull : Value → Bool
  | .vnull => true
  | _ => false

/-- The byte buffer of a symbol/text/bytes value (the `bytes` member of the
union). The source only reads this member on byte-carrying values; on any
other value the C would read type-punned garbage, modelled here as `[]`
(no theorem relies on that arm). -/
def Value.bytesOf : Value → List Nat
  | .symbol bs => bs
  | .text bs => bs
  | .bytes bs => bs
  | _ => []

/-- The canonical nil: a list whose `first` and `rest` pointers are both
null (`lone_list_create_nil`). -/
def nilValue : Value := Value.list .vnull .vnull

/-- Model of `lone_is_nil`: a list value with null `first` and `rest`. -/
def lone_is_nil : Value → Bool
  | .list f r => f.isNull && r.isNull
  | _ => false

/-- Model of `lone_bytes_equals`: length comparison then contents
comparison, i.e. equality of the byte lists. -/
def lone_bytes_equals (x y : List Nat) : Bool := x == y

/-- Model of `fnv_1a`: xor each byte into the hash, then multiply by the
prime, on a wrapping 64-bit unsigned long. -/
def fnv_1a (bs : List Nat) : Nat :=
  bs.foldl (fun hash b => ((hash ^^^ b) * FNV_PRIME) % U64) FNV_OFFSET_BASIS

/-- Model of `lone_table_compute_hash_for`: FNV-1a of the key's bytes,
reduced modulo the capacity. -/
def lone_table_compute_hash_for (key : Value) (capacity : Nat) : Nat :=
  fnv_1a key.bytesOf % capacity

/-- One empty table slot: both the key and the value pointer are null. -/
def emptyEntry : Value × Value := (Value.vnull, Value.vnull)

/-- The probe loop of `lone_table_entry_find_index_for`. Returns the index
the loop stops at together with the list of entry-array indices it read
(`entries[i]` is read once per iteration). The C advances with
`i = i < capacity ? i + 1 : 0`, so from `i = capacity - 1` it steps to
`i = capacity` and reads `entries[capacity]`, one past the array; that
out-of-bounds read is modelled by `List.getD` returning an empty entry (and
is visible in the returned index list). The loop stops at an empty slot or a
content-equal key, hence runs at most `capacity + 1 - start` iterations;
callers pass fuel `capacity + 2`, which is provably enough. -/
def lone_table_entry_find_loop :
    Nat → List Nat → List (Value × Value) → Nat → Nat → Nat × List Nat
  | 0, _, _, _, i => (i, [])
  | fuel + 1, kb, entries, capacity, i =>
    let entry := entries.getD i emptyEntry
    if entry.1.isNull || lone_bytes_equals entry.1.bytesOf kb then (i, [i])
    else
      let r := lone_table_entry_find_loop fuel kb entries capacity
        (if i < capacity then i + 1 else 0)
      (r.1, i :: r.2)

/-- Model of `lone_table_entry_find_index_for` (result index only). -/
def lone_table_entry_find_index_for
    (key : Value) (entries : List (Value × Value)) (capacity : Nat) : Nat :=
  (lone_table_entry_find_loop (capacity + 2) key.bytesOf entries capacity
    (lone_table_compute_hash_for key capacity)).1

/-- The entry-array indices read by `lone_table_entry_find_index_for`. -/
def lone_table_probe_indices
    (key : Value) (entries : List (Value × Value)) (capacity : Nat) : List Nat :=
  (lone_table_entry_find_loop (capacity + 2) key.bytesOf entries capacity
    (lone_table_compute_hash_for key capacity)).2

/-- Model of `lone_table_entry_set` on a raw entry array: probe for the key;
an occupied (content-equal) slot gets its value overwritten (the stored key
object is kept) and the function reports `false`; an empty slot is occupied
by the new key/value pair and the function reports `true` (the caller then
increments the count). A write at index `capacity` (possible through the
probe loop's off-by-one wrap) corrupts memory in the C; `List.set` drops it. -/
def lone_table_entry_set (entries : List (Value × Value)) (capacity : Nat)
    (key value : Value) : Bool × List (Value × Value) :=
  let i := lone_table_entry_find_index_for key entries capacity
  let entry := entries.getD i emptyEntry
  if !entry.1.isNull then (false, entries.set i (entry.1, value))
  else (true, entries.set i (key, value))

/-- The mutable table state `struct lone_table` that the table operations
update in place. -/
structure TableV : Type where
  count : Nat
  capacity : Nat
  entries : List (Value × Value)
  prototype : Value


/-- View of a table state as a value (`struct lone_value` with table tag). -/
def TableV.toValue (t : TableV) : Value :=
  .table t.count t.capacity t.entries t.prototype

/-- Model of `lone_table_create`: a fresh table with the given capacity, all
slots empty, count zero and the given prototype pointer. -/
def lone_table_create (capacity : Nat) (prototype : Value) : TableV :=
  ⟨0, capacity, List.replicate capacity emptyEntry, prototype⟩

/-- Model of `lone_table_resize`: allocate a fresh zeroed entry array of the
new capacity, re-insert every occupied slot of the old array into it with
`lone_table_entry_set`, free the old array, and install the new array and
capacity (the count is not touched). -/
def lone_table_resize (t : TableV) (new_capacity : Nat) : TableV :=
  let newEntries := t.entries.foldl
    (fun acc e => if !e.1.isNull then (lone_table_entry_set acc new_capacity e.1 e.2).2 else acc)
    (List.replicate new_capacity emptyEntry)
  { t with entries := newEntries, capacity := new_capacity }

/-- Model of `lone_table_set`. The C function loads `entries`, `count` and
`capacity` into locals first; when the load factor check triggers it calls
`lone_table_resize` (which frees the old entry array and installs a fresh
one in the table), but then passes the STALE locals to
`lone_table_entry_set`, so the new pair is written into the freed old array
and never reaches the table's current entries; only the returned flag (which
increments `table->table.count`) has any effect on the table. The
non-resizing branch uses the up-to-date array. Both branches are modelled
faithfully. -/
def lone_table_set (t : TableV) (key value : Value) : TableV :=
  let entries := t.entries
  let count := t.count
  let capacity := t.capacity
  if count ≥ capacity / 2 then
    let resized := lone_table_resize t (capacity * 2)
    let stale := lone_table_entry_set entries capacity key value
    { resized with count := if stale.1 then resized.count + 1 else resized.count }
  else
    let r := lone_table_entry_set entries capacity key value
    { t with entries := r.2, count := if r.1 then t.count + 1 else t.count }

/-- Model of `lone_table_get`. On a hit the stored value pointer is returned
(it may be null, as in the C); on a genuine miss the lookup recurses into a
non-null non-nil prototype, and otherwise returns a fresh nil. The recursion
is structural on the prototype chain (the C recursion diverges on a cyclic
chain, which the inductive value model cannot represent). Applied to a
non-table value the C reads junk; that arm returns nil and is unreachable in
the theorems below. -/
def lone_table_get : Value → Value → Value
  | .table _ capacity entries prototype, key =>
    let i := lone_table_entry_find_index_for key entries capacity
    let entry := entries.getD i emptyEntry
    if !entry.1.isNull then entry.2
    else if !prototype.isNull && !lone_is_nil prototype then
      lone_table_get prototype key
    else nilValue
  | _, _ => nilValue

/-- The backward-shift loop of `lone_table_delete`. `i` is the current hole,
`j` the scan position (already advanced by `(j + 1) % capacity` as at the top
of the C loop). It stops at an empty slot, otherwise moves `entries[j]` into
the hole when `j`'s natural hash position falls outside the cyclic range
`(i, j]`. Returns the final entry array and hole index; the caller clears
that slot. The C loop diverges when the array has no empty slot; callers
pass fuel `capacity + 1`, enough to reach an empty slot whenever one
exists. -/
def lone_table_delete_loop :
    Nat → List (Value × Value) → Nat → Nat → Nat → List (Value × Value) × Nat
  | 0, entries, _, i, _ => (entries, i)
  | fuel + 1, entries, capacity, i, j =>
    let entry := entries.getD j emptyEntry
    if entry.1.isNull then (entries, i)
    else
      let k := lone_table_compute_hash_for entry.1 capacity
      if (j > i ∧ (k ≤ i ∨ k > j)) ∨ (j < i ∧ (k ≤ i ∧ k > j)) then
        lone_table_delete_loop fuel (entries.set i entry) capacity j ((j + 1) % capacity)
      else
        lone_table_delete_loop fuel entries capacity i ((j + 1) % capacity)

/-- Model of `lone_table_delete`: probe for the key; if the probe stops on an
empty slot the function returns with the table unchanged; otherwise run the
backward-shift loop from the found slot, clear the final hole and decrement
the count. -/
def lone_table_delete (t : TableV) (key : Value) : TableV :=
  let capacity := t.capacity
  let entries := t.entries
  let i := lone_table_entry_find_index_for key entries capacity
  if (entries.getD i emptyEntry).1.isNull then t
  else
    let r := lone_table_delete_loop (capacity + 1) entries capacity i ((i + 1) % capacity)
    { t with entries := r.1.set r.2 emptyEntry, count := t.count - 1 }

/-- A slot is unproblematic for a key's byte content: the slot is empty, or
its key's bytes differ from the probed key's bytes. A probe for the key can
only terminate successfully on a slot violating this. -/
def slotOkay (entries : List (Value × Value)) (kb : List Nat) (j : Nat) : Prop :=
  (entries.getD j emptyEntry).1.isNull = true ∨
  lone_bytes_equals (entries.getD j emptyEntry).1.bytesOf kb = false

/-! Lexer. The C lexer walks an input buffer with `peek`/`consume`; since the
position only moves forward, the remaining byte list is the state. Each
`lone_lexer_consume_*` helper receives the remaining input positioned at the
start of the candidate token and returns the token value and the remaining
input after it, or `none` where the C either reports failure (`return 1`,
which makes `lone_lex` call `linux_exit(-1)`) or performs an invalid memory
access (detailed at `lone_lexer_consume_text`). Bytes are ASCII codes:
9 tab, 10 newline, 32 space, 34 quote, 40 `(`, 41 `)`, 43 `+`, 45 `-`,
48-57 digits. -/

/-- Model of `lone_lexer_match_byte`: a space target matches space, tab and
newline; a digit target matches any digit; anything else matches itself. -/
def lone_lexer_match_byte (byte target : Nat) : Bool :=
  if target = 32 then byte = 32 || byte = 9 || byte = 10
  else if 48 ≤ target ∧ target ≤ 57 then 48 ≤ byte && byte ≤ 57
  else byte = target

/-- Separator predicate used by number/symbol/text scanning: the byte stops a
token when it is a closing parenthesis or whitespace. -/
def isTokenByte (b : Nat) : Bool := b ≠ 41 && !lone_lexer_match_byte b 32

/-- One accumulation step of `lone_integer_parse`: `integer *= 10` then
`integer += digit - '0'`, each operation wrapping on a signed 64-bit long. -/
def lone_integer_parse_step (acc : Int) (d : Nat) : Int :=
  wrap64 (wrap64 (acc * 10) + ((d : Int) - 48))

/-- Model of `lone_integer_parse`: skip an optional sign byte, accumulate the
decimal digits left to right with `lone_integer_parse_step`, and negate
(wrapping) when the first byte is `-`. -/
def lone_integer_parse (digits : List Nat) : Value :=
  let start := if digits.head? = some 43 ∨ digits.head? = some 45 then 1 else 0
  let acc := (digits.drop start).foldl lone_integer_parse_step 0
  .integer (if digits.head? = some 45 then wrap64 (-acc) else acc)

/-- Model of `lone_lexer_consume_number`: an optional sign, then at least one
digit, then more digits; the byte after the digits must be a closing
parenthesis, whitespace, or end of input; the token is the signed digit run
handed to `lone_integer_parse`. -/
def lone_lexer_consume_number (input : List Nat) : Option (Value × List Nat) :=
  match input with
  | [] => none
  | b :: _ =>
    let signLen := if b = 43 ∨ b = 45 then 1 else 0
    let afterSign := input.drop signLen
    match afterSign with
    | d :: _ =>
      if lone_lexer_match_byte d 49 then
        let ds := afterSign.takeWhile (fun x => lone_lexer_match_byte x 49)
        let rest := afterSign.dropWhile (fun x => lone_lexer_match_byte x 49)
        match rest with
        | x :: _ =>
          if x ≠ 41 ∧ ¬ lone_lexer_match_byte x 32 then none
          else some (lone_integer_parse (input.take (signLen + ds.length)), rest)
        | [] => some (lone_integer_parse (input.take (signLen + ds.length)), rest)
      else none
    | [] => none

/-- Model of `lone_lexer_consume_symbol`: the run of bytes up to the next
closing parenthesis or whitespace becomes a symbol (possibly empty; the
dispatcher only calls this with a non-separator first byte). -/
def lone_lexer_consume_symbol (input : List Nat) : Option (Value × List Nat) :=
  match input with
  | [] => none
  | _ :: _ => some (.symbol (input.takeWhile isTokenByte), input.dropWhile isTokenByte)

/-- Model of `lone_lexer_consume_text`: an opening quote, verbatim content
bytes up to a closing quote, then a mandatory separator check on the byte
after the closing quote. Two arms are undefined behaviour in the C and map
to `none`: with no closing quote before end of input the C increments the
null pointer returned by `peek` and dereferences address 1 (a crash), and
with the closing quote as the very last input byte the separator check
dereferences one byte past the end of the input buffer (an out-of-bounds
read of adjacent heap memory). -/
def lone_lexer_consume_text (input : List Nat) : Option (Value × List Nat) :=
  match input with
  | 34 :: rest =>
    let content := rest.takeWhile (fun b => b ≠ 34)
    match rest.dropWhile (fun b => b ≠ 34) with
    | [] => none
    | _ :: after =>
      match after with
      | [] => none
      | x :: _ =>
        if x ≠ 41 ∧ ¬ lone_lexer_match_byte x 32 then none
        else some (.text content, after)
  | _ => none

/-- Model of `lone_lexer_consume_parenthesis`: a single `(` or `)` becomes a
one-byte symbol token. -/
def lone_lexer_consume_parenthesis (input : List Nat) : Option (Value × List Nat) :=
  match input with
  | 40 :: rest => some (.symbol [40], rest)
  | 41 :: rest => some (.symbol [41], rest)
  | _ => none

/-- The dispatcher of `lone_lex` for a non-whitespace current byte: a sign
followed by a digit or a bare digit starts a number, a quote starts a text,
a parenthesis is taken as is, and anything else is a symbol. -/
def lone_lex_step (input : List Nat) : Option (Value × List Nat) :=
  match input with
  | [] => none
  | c :: rest =>
    if c = 43 ∨ c = 45 then
      match rest with
      | c1 :: _ =>
        if lone_lexer_match_byte c1 49 then lone_lexer_consume_number input
        else lone_lexer_consume_symbol input
      | [] => lone_lexer_consume_symbol input
    else if 48 ≤ c ∧ c ≤ 57 then lone_lexer_consume_number input
    else if c = 34 then lone_lexer_consume_text input
    else if c = 40 ∨ c = 41 then lone_lexer_consume_parenthesis input
    else lone_lexer_consume_symbol input

/-- The loop of `lone_lex`: skip whitespace, otherwise dispatch one token and
append it to the output list; a failed helper reaches `lex_failed` and the
process exits (`none`). Every iteration consumes at least one byte, so fuel
`input.length + 1` (used by `lone_lex`) never runs out. -/
def lone_lex_loop : Nat → List Nat → Option (List Value)
  | 0, _ => none
  | _ + 1, [] => some []
  | fuel + 1, c :: rest =>
    if lone_lexer_match_byte c 32 then lone_lex_loop fuel rest
    else
      match lone_lex_step (c :: rest) with
      | none => none
      | some (v, rest') => (lone_lex_loop fuel rest').map (v :: ·)

/-- Model of `lone_lex`: the token list for a whole input buffer, or `none`
when the C process would terminate without producing one. -/
def lone_lex (input : List Nat) : Option (List Value) :=
  lone_lex_loop (input.length + 1) input

/-- Build the cons-chain value for a list of elements, ending in nil, the
shape `lone_parse_list` builds with `lone_list_set`/`lone_list_append`. -/
def listOf : List Value → Value
  | [] => nilValue
  | v :: vs => .list v (listOf vs)

/-! Parser. `lone_parse_tokens` consumes the token list destructively; the
model passes the remaining token list along. The result is
`none` when the C reaches `parse_failed` or the `default:` arm (process
exit), and otherwise `some (parsed?, rest)` where `parsed? = none` models the
C returning the null pointer ("need more input") and `some v` a parsed
value (`v` is the nil value on clean end of input). The fuel drops by one on
every call edge (so the mutual recursion is structural on it); since every
parsed element consumes at least one token, `2 * tokens.length + 1` call
edges are enough for any token list, and `lone_parse_tokens` passes that, so
the fuel-exhaustion arms (returning `none`) are never reached from it. The C
also exits when a token list node has a null `first`
(`(*tokens)->list.first == 0`); the lexer never builds such a node, and the
token-list model (a plain list of token values) cannot represent it. -/

mutual

/-- Model of `lone_parse_tokens` (see the section comment above). -/
def lone_parse_tokens_go : Nat → List Value → Option (Option Value × List Value)
  | 0, _ => none
  | _ + 1, [] => some (some nilValue, [])
  | fuel + 1, tok :: rest =>
    match tok with
    | .symbol bs =>
      if bs.getD 0 0 = 40 then lone_parse_list_go fuel rest []
      else if bs.getD 0 0 = 41 then none
      else some (some tok, rest)
    | .integer n => some (some (.integer n), rest)
    | .text bs => some (some (.text bs), rest)
    | _ => none

/-- Model of `lone_parse_list`: parse elements until a closing-parenthesis
token, accumulating them; exhausting the tokens mid-list returns the
need-more-input signal (the partially built list is abandoned, as in the C). -/
def lone_parse_list_go : Nat → List Value → List Value → Option (Option Value × List Value)
  | 0, _, _ => none
  | _ + 1, [], _ => some (none, [])
  | fuel + 1, tok :: rest, acc =>
    match tok with
    | .symbol bs =>
      if bs.getD 0 0 = 41 then some (some (listOf acc), rest)
      else
        match lone_parse_tokens_go fuel (tok :: rest) with
        | none => none
        | some (v?, rest') => lone_parse_list_go fuel rest' (acc ++ [v?.getD .vnull])
    | _ =>
      match lone_parse_tokens_go fuel (tok :: rest) with
      | none => none
      | some (v?, rest') => lone_parse_list_go fuel rest' (acc ++ [v?.getD .vnull])

end

/-- Model of `lone_parse_tokens` at its standard fuel. -/
def lone_parse_tokens (tokens : List Value) : Option (Option Value × List Value) :=
  lone_parse_tokens_go (2 * tokens.length + 1) tokens

/-- Lex a byte buffer and parse one value from the resulting tokens: the
composition the reader applies to its buffer (without carried-over tokens). -/
def parseOneValue (input : List Nat) : Option (Option Value × List Value) :=
  match lone_lex input with
  | none => none
  | some tokens => lone_parse_tokens tokens

/-! Printer. `lone_print` dispatches on the value's type; lists print their
elements recursively separated by spaces with a dotted tail for a non-list
rest, tables print occupied slots in physical order, and integers print in
minimal decimal. The output is the byte list the C writes to the file
descriptor. -/

/-- The digit-extraction do-while loop of `lone_print_integer`: emit
`'0' + n % 10`, divide by ten, repeat while the quotient is positive. C `%`
and `/` on `long` truncate toward zero (`Int.tmod`/`Int.tdiv`). One digit is
emitted per iteration and the magnitude shrinks by a factor of ten, so the
21 units of fuel passed by `lone_print_integer` cover every 64-bit long. -/
def lone_print_integer_digits : Nat → Int → List Nat
  | 0, _ => []
  | fuel + 1, n =>
    let digit := (48 + n.tmod 10).toNat
    let n' := n.tdiv 10
    (if n' > 0 then lone_print_integer_digits fuel n' else []) ++ [digit]

/-- Model of `lone_print_integer`: negate a negative argument (`n *= -1`
wraps on a 64-bit long, so the most negative long stays negative) and print
the digits behind a minus sign. -/
def lone_print_integer (n : Int) : List Nat :=
  let isNegative := n < 0
  let m := if isNegative then wrap64 (-n) else n
  (if isNegative then [45] else []) ++ lone_print_integer_digits 21 m

/-- The uppercase hexadecimal digit table of `lone_print_bytes`. -/
def hexadecimal : List Nat := [48, 49, 50, 51, 52, 53, 54, 55, 56, 57, 65, 66, 67, 68, 69, 70]

/-- Model of `lone_print_bytes`: no content prints the literal `bytes[]`;
otherwise `bytes[0x`, two uppercase hexadecimal digits per content byte
(high nibble `(b & 0xF0) >> 4` first, then low nibble `b & 0x0F`), and a
closing bracket. -/
def lone_print_bytes (bs : List Nat) : List Nat :=
  if bs.length = 0 then [98, 121, 116, 101, 115, 91, 93]
  else
    let text := [48, 120] ++ bs.flatMap (fun b =>
      [hexadecimal.getD ((b &&& 0xF0) >>> 4) 0, hexadecimal.getD (b &&& 0x0F) 0])
    [98, 121, 116, 101, 115, 91] ++ text ++ [93]

mutual

/-- Model of `lone_print`: nothing for a null pointer or nil, parentheses
around the list printer for a list, the table printer for a table,
`lone_print_bytes` for bytes, the raw buffer for a symbol, the quoted buffer
for a text, and the decimal integer for integers and pointers (a pointer
prints the integer view of its bit pattern). -/
def lone_print (value : Value) : List Nat :=
  match value with
  | .vnull => []
  | .list f r =>
    if f.isNull && r.isNull then []
    else
      [40] ++
      (lone_print f ++
        (match r with
         | .list rf rr =>
           if rf.isNull && rr.isNull then [] else [32] ++ lone_print_list (.list rf rr)
         | .vnull => []
         | other => [32, 46, 32] ++ lone_print other)) ++
      [41]
  | .table _ _ entries _ => [123, 32] ++ lone_print_table_entries entries ++ [125]
  | .bytes bs => lone_print_bytes bs
  | .symbol bs => bs
  | .text bs => [34] ++ bs ++ [34]
  | .integer n => lone_print_integer n
  | .pointer n => lone_print_integer n

/-- Model of `lone_print_list`: print the list's `first`; a non-nil list
`rest` continues after a space, a non-list non-null `rest` prints as a
dotted tail. In the C, `lone_print` on a non-nil list calls this function on
the list itself; so that the mutual recursion decreases structurally, the
first iteration is unrolled into `lone_print`'s list arm above, and the
lemma `lone_print_eq_print_list` below proves the two presentations agree.
A null `rest` pointer would crash the C (`rest->type` dereferences null);
lists built by the parser always end in nil, so that arm (modelled as empty
output) is unreachable in the theorems below. -/
def lone_print_list (value : Value) : List Nat :=
  match value with
  | .list f r =>
    if f.isNull && r.isNull then []
    else
      lone_print f ++
      (match r with
       | .list rf rr =>
         if rf.isNull && rr.isNull then [] else [32] ++ lone_print_list (.list rf rr)
       | .vnull => []
       | other => [32, 46, 32] ++ lone_print other)
  | _ => []

/-- The slot loop of `lone_print_table`: each occupied slot prints its key, a
space, its value (the literal `nil` for a null value pointer) and a space. -/
def lone_print_table_entries (entries : List (Value × Value)) : List Nat :=
  match entries with
  | [] => []
  | e :: rest =>
    (if !e.1.isNull then
      lone_print e.1 ++ [32] ++ (if !e.2.isNull then lone_print e.2 else [110, 105, 108]) ++ [32]
    else []) ++ lone_print_table_entries rest

end

/-! Reader. The reader owns a growing input buffer, a position, carried-over
tokens and a finished flag (`struct lone_reader`). The model keeps the live
buffer contents (the first `position` bytes) as `content`; the file
descriptor is modelled by a schedule: the list of byte chunks successive
`read` system calls deliver (an exhausted schedule delivers empty reads, the
end of the stream). A chunk is capped at the requested length, as `read`
never returns more than asked. -/

structure ReaderM : Type where
  content : List Nat
  capacity : Nat
  remaining : Option (List Value)
  finished : Bool

/-- Model of `lone_reader_initialize`: empty buffer of the given size, null
carried-over token list, not finished. -/
def lone_reader_initialize (buffer_size : Nat) : ReaderM :=
  ⟨[], buffer_size, none, false⟩

/-- The read loop of `lone_read_from_file_descriptor`: read up to `size`
bytes (the buffer length at entry, requested unchanged every iteration);
append them to the buffer contents; a read of exactly `size` bytes grows the
allocation by `size` more bytes (`allocated += size`) and loops, a shorter
read ends the call. Returns the total bytes read, the final allocation, the
final contents and the rest of the schedule. Every loop iteration with a
positive `size` either consumes a schedule chunk or hits the empty read at
end of schedule and stops, so the caller's fuel `stream.length + 1` never
runs out. -/
def lone_read_fd_loop :
    Nat → Nat → Nat → List Nat → List (List Nat) → Nat × Nat × List Nat × List (List Nat)
  | 0, _, allocated, content, stream => (0, allocated, content, stream)
  | fuel + 1, size, allocated, content, stream =>
    let chunk := (stream.headD []).take size
    let stream' := stream.tail
    let content' := content ++ chunk
    if chunk.length = size then
      let r := lone_read_fd_loop fuel size (allocated + size) content' stream'
      (chunk.length + r.1, r.2)
    else (chunk.length, allocated, content', stream')

/-- Model of `lone_read_from_file_descriptor`: run the read loop with the
buffer length as the request size, then store the final buffer and its
(possibly grown) length back into the reader. -/
def lone_read_from_file_descriptor (r : ReaderM) (stream : List (List Nat)) :
    Nat × ReaderM × List (List Nat) :=
  let out := lone_read_fd_loop (stream.length + 1) r.capacity r.capacity r.content stream
  (out.1, { r with content := out.2.2.1, capacity := out.2.1 }, out.2.2.2)

/-- Model of `lone_parse`: lex the buffer; when the carried-over token list
is non-null and non-nil, append the fresh tokens to it and parse the
combination; return the parse result and leave the tokens that survive the
parse as the new carried-over list. -/
def lone_parse (input : List Nat) (remainder : Option (List Value)) :
    Option (Option Value × List Value) :=
  match lone_lex input with
  | none => none
  | some tokens =>
    let toks :=
      match remainder with
      | some rem => if rem.isEmpty then tokens else rem ++ tokens
      | none => tokens
    lone_parse_tokens toks

/-- The do-while loop of `lone_read`: read, parse the whole buffer contents
together with carried-over tokens; a null parse result ("need more input")
returns null to the caller when the read delivered nothing, and otherwise
loops; a parsed value marks the reader finished when it is nil and nothing
was read, resets the position and is returned. The outer `none` models a
fatal lex or parse error (process exit). Each recursion consumed at least
one schedule chunk, so fuel `stream.length + 1` (used by `lone_read`) never
runs out. -/
def lone_read_go :
    Nat → ReaderM → List (List Nat) → Option (Option Value × ReaderM × List (List Nat))
  | 0, _, _ => none
  | fuel + 1, reader, stream =>
    let rr := lone_read_from_file_descriptor reader stream
    match lone_parse rr.2.1.content rr.2.1.remaining with
    | none => none
    | some (parsed?, rem') =>
      let reader' := { rr.2.1 with remaining := some rem' }
      match parsed? with
      | none =>
        if rr.1 = 0 then some (none, reader', rr.2.2)
        else lone_read_go fuel reader' rr.2.2
      | some v =>
        let reader'' :=
          if rr.1 = 0 && lone_is_nil v then { reader' with finished := true } else reader'
        some (some v, { reader'' with content := [] }, rr.2.2)

/-- Model of `lone_read` at its standard fuel. -/
def lone_read (reader : ReaderM) (stream : List (List Nat)) :
    Option (Option Value × ReaderM × List (List Nat)) :=
  lone_read_go (stream.length + 1) reader stream

/-- The driver loop of the `lone` entry point, restricted to what the claims
observe: call `lone_read` until the reader is finished, collecting the
parsed top-level values in order; a null value from `lone_read` or a fatal
lex/parse error aborts the run (the process exits with a nonzero status),
reported as `false` in the second component. Explicit fuel bounds the number
of driver iterations; the concrete theorems pass ample fuel. -/
def lone_run_loop : Nat → ReaderM → List (List Nat) → List Value × Bool
  | 0, _, _ => ([], false)
  | fuel + 1, reader, stream =>
    if reader.finished then ([], true)
    else
      match lone_read reader stream with
      | none => ([], false)
      | some (none, _, _) => ([], false)
      | some (some v, reader', stream') =>
        let r := lone_run_loop fuel reader' stream'
        (v :: r.1, r.2)

/-- A whole run: driver loop from a fresh reader with the source's 4096-byte
buffer over the given read schedule. -/
def lone_run (fuel : Nat) (stream : List (List Nat)) : List Value × Bool :=
  lone_run_loop fuel ( lone_reader_initialize 4096) stream

/-! Value store teardown. `lone_deallocate_all` walks the `lone_values`
registry; for each node it frees the byte buffer when the value is a symbol,
a text or a bytes object (the switch has no other arms), then frees the node
itself. A store node is modelled by its type tag and the allocator block
identities it references: the node's own header block, the block behind the
`bytes.pointer` union member (meaningful for the byte-carrying types) and
the block behind a table's entry array. -/

inductive LoneType : Type where
  | list | table | symbol | text | bytes | integer | pointer

/-- One node of the `lone_values` registry, as relevant to teardown. -/
structure StoreNode : Type where
  vtype : LoneType
  headerBlock : Nat
  bytesBlock : Nat
  entriesBlock : Nat

/-- Whether a store node's type carries a byte buffer (the three arms of the
`lone_deallocate_all` switch). -/
def LoneType.carriesBytes : LoneType → Bool
  | .symbol => true
  | .text => true
  | .bytes => true
  | _ => false

/-- Model of `lone_deallocate_all`: the blocks passed to `lone_deallocate`,
in order: for each node, the byte buffer when the type carries one, then
the node's header. -/
def lone_deallocate_all : List StoreNode → List Nat
  | [] => []
  | v :: next =>
    (if v.vtype.carriesBytes then [v.bytesBlock] else []) ++
    [v.headerBlock] ++ lone_deallocate_all next

/-! Spec-side definitions. The two definitions below follow the
specification's words rather than the source, for comparison against the
source-derived definitions (refinement checks for C8 and C10). -/

/-- Modelled from the spec: "growing input buffer (doubled via reallocation
whenever a raw read fills the buffer completely)" — the read loop as the
spec describes it, with the allocation doubled (instead of grown by `size`)
after every complete read. -/
def spec_read_fd_loop :
    Nat → Nat → Nat → List Nat → List (List Nat) → Nat × Nat × List Nat × List (List Nat)
  | 0, _, allocated, content, stream => (0, allocated, content, stream)
  | fuel + 1, size, allocated, content, stream =>
    let chunk := (stream.headD []).take size
    let stream' := stream.tail
    let content' := content ++ chunk
    if chunk.length = size then
      let r := spec_read_fd_loop fuel size (allocated * 2) content' stream'
      (chunk.length + r.1, r.2)
    else (chunk.length, allocated, content', stream')

/-- An uppercase hexadecimal digit as the claim describes it: `0`-`9` for
values below ten, `A`-`F` above. -/
def specHexDigit (n : Nat) : Nat := if n < 10 then 48 + n else 55 + n

/-- The output form for a bytes value as claim C10 describes it: the literal
`bytes[0x`, two uppercase hexadecimal digits per content byte with the high
nibble first, and a closing bracket; `bytes[]` for empty content. -/
def spec_print_bytes (bs : List Nat) : List Nat :=
  if bs = [] then [98, 121, 116, 101, 115, 91, 93]
  else
    [98, 121, 116, 101, 115, 91, 48, 120] ++
    bs.flatMap (fun b => [specHexDigit (b / 16 % 16), specHexDigit (b % 16)]) ++ [93]

/-! Predicates for the round-trip claim (C5) and the unterminated-text claim
(C7). -/

/-- The printed form of a value is followed by a hard separator: a closing
parenthesis or whitespace. Inside a printed list every element is followed
by one of these. -/
def StrictSep (rest : List Nat) : Prop :=
  ∃ x xs, rest = x :: xs ∧ (x = 41 ∨ lone_lexer_match_byte x 32 = true)

/-- Context in which a printed value re-lexes as one token: either a hard
separator follows, or the input ends there — but a text must not sit at the
very end, since the lexer's separator check then reads past the end of the
input buffer. -/
def SepAfter (v : Value) (rest : List Nat) : Prop :=
  StrictSep rest ∨ (rest = [] ∧ ∀ bs, v ≠ .text bs)

/-- The value trees over which the round-trip holds: integers strictly
within the signed 64-bit range, symbols that re-lex as one symbol token
(non-empty, no separator bytes, not starting like a number, a text or a
parenthesis), texts without interior quotes, and non-empty proper lists of
such values. -/
inductive GoodValue : Value → Prop where
  | int (n : Int) : -(2 ^ 63) < n → n < 2 ^ 63 → GoodValue (.integer n)
  | sym (bs : List Nat) :
      bs ≠ [] →
      (∀ b ∈ bs, isTokenByte b = true) →
      (∀ d, bs.head? = some d → ¬(48 ≤ d ∧ d ≤ 57) ∧ d ≠ 34 ∧ d ≠ 40) →
      ((bs.head? = some 43 ∨ bs.head? = some 45) →
        ∀ d, bs.get? 1 = some d → ¬(48 ≤ d ∧ d ≤ 57)) →
      GoodValue (.symbol bs)
  | txt (bs : List Nat) : (∀ b ∈ bs, b ≠ 34) → GoodValue (.text bs)
  | lst (vs : List Value) : vs ≠ [] → (∀ v ∈ vs, GoodValue v) → GoodValue (listOf vs)

/-- A value re-lexes and re-parses from its printed form in any separator
context: whenever the bytes after it lex to a token list, the printed value
followed by those bytes lexes to some tokens `tv` for the value followed by
that token list; `tv` does not start with a closing-parenthesis symbol
token; and parsing `tv` followed by any continuation yields exactly the
value and the continuation (for every sufficient parser fuel). The
round-trip theorem for claim C5 proves this for every `GoodValue`. -/
def RoundTrips (v : Value) : Prop :=
  ∀ rest toks, SepAfter v rest → lone_lex rest = some toks →
    ∃ tv, tv ≠ [] ∧ lone_lex (lone_print v ++ rest) = some (tv ++ toks) ∧
      (∀ bs, tv.head? = some (.symbol bs) → bs.getD 0 0 ≠ 41) ∧
      ∀ more fuel, 2 * (tv ++ more).length + 1 ≤ fuel →
        lone_parse_tokens_go fuel (tv ++ more) = some (some v, more)

/-- The lexer's reachability relation: `LexReaches input s` holds when the
`lone_lex` loop, started on `input`, at some point has exactly `s` left to
scan with the dispatcher about to run (after whitespace skips and complete
token consumptions). Its constructors mirror the two ways one loop iteration
advances. -/
inductive LexReaches : List Nat → List Nat → Prop where
  | refl (s : List Nat) : LexReaches s s
  | ws (c : Nat) (rest s : List Nat) :
      lone_lexer_match_byte c 32 = true →
      LexReaches rest s → LexReaches (c :: rest) s
  | tok (c : Nat) (rest rest' s : List Nat) (v : Value) :
      lone_lexer_match_byte c 32 = false →
      lone_lex_step (c :: rest) = some (v, rest') →
      LexReaches rest' s → LexReaches (c :: rest) s

/-! General list lemmas used by the table proofs. -/

theorem getD_set_self {α : Type} (l : List α) (i : Nat) (x d : α) (h : i < l.length) :
    (l.set i x).getD i d = x := by
  induction l generalizing i with
  | nil => simp at h
  | cons a as ih =>
    cases i with
    | zero => rfl
    | succ n => exact ih n (by simpa using h)

theorem getD_set_ne {α : Type} (l : List α) (i j : Nat) (x d : α) (h : i ≠ j) :
    (l.set i x).getD j d = l.getD j d := by
  induction l generalizing i j with
  | nil => rfl
  | cons a as ih =>
    cases i with
    | zero => cases j with
      | zero => exact absurd rfl h
      | succ m => rfl
    | succ n => cases j with
      | zero => rfl
      | succ m => exact ih n m (by omega)

theorem set_getD_self {α : Type} (l : List α) (i : Nat) (d : α) :
    l.set i (l.getD i d) = l := by
  induction l generalizing i with
  | nil => rfl
  | cons a as ih =>
    cases i with
    | zero => rfl
    | succ n => simpa using ih n

theorem getD_of_length_le {α : Type} (l : List α) (i : Nat) (d : α) (h : l.length ≤ i) :
    l.getD i d = d := by
  induction l generalizing i with
  | nil => rfl
  | cons a as ih =>
    cases i with
    | zero => simp at h
    | succ n => exact ih n (by simpa using h)

/-! C10: the printed form of a bytes value. -/

/-- The two hexadecimal digits the source computes for one content byte
agree with the high-nibble-first uppercase pair the claim describes. -/
theorem hex_pair_agrees : ∀ b < 256,
    [hexadecimal.getD ((b &&& 0xF0) >>> 4) 0, hexadecimal.getD (b &&& 0x0F) 0] =
      [specHexDigit (b / 16 % 16), specHexDigit (b % 16)] := by decide

/-- C10: for every bytes value (content bytes below 256, as unsigned chars
are), the printer writes the literal `bytes[0x` followed by exactly two
uppercase hexadecimal digits per content byte, high nibble first, and a
closing bracket; empty content prints exactly `bytes[]`. -/
theorem print_bytes_matches_hex_form (bs : List Nat) (h : ∀ b ∈ bs, b < 256) :
    lone_print_bytes bs = spec_print_bytes bs := by
  have hcongr : ∀ (l : List Nat), (∀ b ∈ l, b < 256) →
      l.flatMap (fun b =>
        [hexadecimal.getD ((b &&& 0xF0) >>> 4) 0, hexadecimal.getD (b &&& 0x0F) 0]) =
      l.flatMap (fun b => [specHexDigit (b / 16 % 16), specHexDigit (b % 16)]) := by
    intro l hl
    induction l with
    | nil => rfl
    | cons x xs ih =>
      have hx := hex_pair_agrees x (hl x (by simp))
      have hxs := ih (fun b hb => hl b (by simp [hb]))
      simp only [List.flatMap_cons, hx, hxs]
  unfold lone_print_bytes spec_print_bytes
  rcases bs with _ | ⟨b, rest⟩
  · rfl
  · rw [if_neg (by simp), if_neg (by simp), hcongr (b :: rest) h]
    simp

/-- Witness for C10 at a concrete bytes value. -/
theorem print_bytes_matches_hex_form_witness :
    (∀ b ∈ [0, 171, 255], b < 256) ∧
    lone_print_bytes [0, 171, 255] = spec_print_bytes [0, 171, 255] ∧
    lone_print_bytes [] = [98, 121, 116, 101, 115, 91, 93] :=
  ⟨by decide, print_bytes_matches_hex_form [0, 171, 255] (by decide), rfl⟩

/-! C9: shutdown teardown coverage. -/

/-- C9 (amended): the bulk teardown pass frees, for every value in the store,
the value's header and, exactly when the value is a symbol, a text or a
bytes object, its byte buffer — and nothing else: in particular no table's
entry-array block is passed to the deallocator on its account. -/
theorem mem_deallocate_all (b : Nat) (store : List StoreNode) :
    b ∈ lone_deallocate_all store ↔
      ∃ v ∈ store, b = v.headerBlock ∨ (v.vtype.carriesBytes = true ∧ b = v.bytesBlock) := by
  induction store with
  | nil => simp [lone_deallocate_all]
  | cons v rest ih =>
    constructor
    · intro hb
      simp only [lone_deallocate_all, List.append_assoc, List.mem_append] at hb
      rcases hb with hb | hb | hb
      · rcases hcv : v.vtype.carriesBytes with _ | _
        · simp [hcv] at hb
        · simp only [hcv, if_true, List.mem_singleton] at hb
          exact ⟨v, by simp, Or.inr ⟨hcv, hb⟩⟩
      · simp only [List.mem_singleton] at hb
        exact ⟨v, by simp, Or.inl hb⟩
      · obtain ⟨w, hw, h⟩ := ih.mp hb
        exact ⟨w, by simp [hw], h⟩
    · rintro ⟨w, hw, h⟩
      simp only [List.mem_cons] at hw
      simp only [lone_deallocate_all, List.append_assoc, List.mem_append]
      rcases hw with rfl | hw
      · rcases h with h | ⟨hc, h⟩
        · exact Or.inr (Or.inl (by simp [h]))
        · exact Or.inl (by simp [hc, h])
      · exact Or.inr (Or.inr (ih.mpr ⟨w, hw, h⟩))

theorem deallocate_all_frees_headers_and_byte_buffers (store : List StoreNode) :
    (∀ v ∈ store, v.headerBlock ∈ lone_deallocate_all store ∧
      (v.vtype.carriesBytes = true → v.bytesBlock ∈ lone_deallocate_all store)) ∧
    (∀ b ∈ lone_deallocate_all store, ∃ v ∈ store,
      b = v.headerBlock ∨ (v.vtype.carriesBytes = true ∧ b = v.bytesBlock)) := by
  constructor
  · intro v hv
    exact ⟨(mem_deallocate_all _ store).mpr ⟨v, hv, Or.inl rfl⟩,
      fun hc => (mem_deallocate_all _ store).mpr ⟨v, hv, Or.inr ⟨hc, rfl⟩⟩⟩
  · intro b hb
    exact (mem_deallocate_all b store).mp hb

/-- Witness for C9's amended theorem at a two-value store. -/
theorem deallocate_all_frees_headers_and_byte_buffers_witness :
    (⟨.symbol, 2, 5, 0⟩ : StoreNode) ∈ [(⟨.symbol, 2, 5, 0⟩ : StoreNode), ⟨.table, 1, 0, 7⟩] ∧
    (2 ∈ lone_deallocate_all [(⟨.symbol, 2, 5, 0⟩ : StoreNode), ⟨.table, 1, 0, 7⟩] ∧
      5 ∈ lone_deallocate_all [(⟨.symbol, 2, 5, 0⟩ : StoreNode), ⟨.table, 1, 0, 7⟩]) :=
  ⟨by simp, by
    have h := (deallocate_all_frees_headers_and_byte_buffers
      [(⟨.symbol, 2, 5, 0⟩ : StoreNode), ⟨.table, 1, 0, 7⟩]).1
      ⟨.symbol, 2, 5, 0⟩ (by simp)
    exact ⟨h.1, h.2 rfl⟩⟩

/-- C9 (counterexample): a store holding one table value; the teardown frees
only the value's header — the table's entry-array block (block 7) is not
deallocated, contrary to the claim that every buffer reachable through the
store is freed. -/
theorem deallocate_all_skips_table_entry_arrays :
    lone_deallocate_all [(⟨.table, 1, 0, 7⟩ : StoreNode)] = [1] ∧
    7 ∉ lone_deallocate_all [(⟨.table, 1, 0, 7⟩ : StoreNode)] :=
  ⟨rfl, by decide⟩

/-! C8: the reader's buffer growth policy. -/

/-- Behaviour of the read loop: with a positive request size, the allocation
grows by exactly `size` (one original buffer length) for each leading
schedule chunk that fills the request completely, and the loop stops at the
first read that delivers less, having consumed exactly the full chunks plus
that one shorter read. -/
theorem read_fd_loop_additive (size : Nat) (hs : 0 < size) :
    ∀ (stream : List (List Nat)) (fuel allocated : Nat) (content : List Nat),
      stream.length < fuel →
      (lone_read_fd_loop fuel size allocated content stream).2.1
          = allocated + size * (stream.takeWhile (fun c => size ≤ c.length)).length ∧
      (lone_read_fd_loop fuel size allocated content stream).2.2.2
          = stream.drop ((stream.takeWhile (fun c => size ≤ c.length)).length + 1) := by
  intro stream
  induction stream with
  | nil =>
    intro fuel allocated content hfuel
    rcases fuel with _ | fuel
    · omega
    · simp only [lone_read_fd_loop, List.headD_nil, List.take_nil, List.length_nil]
      rw [if_neg (by omega)]
      simp
  | cons c rest ih =>
    intro fuel allocated content hfuel
    rcases fuel with _ | fuel
    · simp at hfuel
    · simp only [lone_read_fd_loop, List.headD_cons, List.tail_cons]
      rcases Nat.lt_or_ge c.length size with hlt | hge
      · have hne : (c.take size).length ≠ size := by
          simp [List.length_take]; omega
        rw [if_neg hne]
        have htw : (c :: rest).takeWhile (fun c => size ≤ c.length) = [] := by
          simp [List.takeWhile_cons]; omega
        simp [htw]
      · have heq : (c.take size).length = size := by
          simp [List.length_take]; omega
        rw [if_pos heq]
        have htw : (c :: rest).takeWhile (fun c => size ≤ c.length)
            = c :: rest.takeWhile (fun c => size ≤ c.length) := by
          simp [List.takeWhile_cons, hge]
        have hr := ih fuel (allocated + size) (content ++ c.take size) (by simpa using hfuel)
        refine ⟨?_, ?_⟩
        · rw [htw]
          simp only [List.length_cons]
          rw [hr.1]
          ring
        · rw [htw]
          simp only [List.length_cons, List.drop_succ_cons]
          exact hr.2

/-- C8 (amended): per reader call, the buffer allocation grows additively —
final capacity is the entry capacity times one more than the number of
leading completely-filled reads (each complete read grows the buffer by one
original buffer length, not by doubling) — and the call stops at the first
read that returns fewer bytes than requested, consuming no further schedule
chunks. -/
theorem read_from_fd_growth (r : ReaderM) (stream : List (List Nat)) (h : 0 < r.capacity) :
    (lone_read_from_file_descriptor r stream).2.1.capacity
        = r.capacity * ((stream.takeWhile (fun c => r.capacity ≤ c.length)).length + 1) ∧
    (lone_read_from_file_descriptor r stream).2.2
        = stream.drop ((stream.takeWhile (fun c => r.capacity ≤ c.length)).length + 1) := by
  have hr := read_fd_loop_additive r.capacity h stream (stream.length + 1) r.capacity
    r.content (by omega)
  unfold lone_read_from_file_descriptor
  refine ⟨?_, hr.2⟩
  simp only [hr.1]
  ring

/-- Witness for C8's amended theorem: a 4-byte buffer, one complete read
then a short one; the capacity becomes 8 and exactly two chunks are
consumed. -/
theorem read_from_fd_growth_witness :
    0 < ( lone_reader_initialize 4).capacity ∧
    (lone_read_from_file_descriptor ( lone_reader_initialize 4)
        [[1, 2, 3, 4], [9]]).2.1.capacity = 8 ∧
    (lone_read_from_file_descriptor ( lone_reader_initialize 4)
        [[1, 2, 3, 4], [9]]).2.2 = [] := by
  refine ⟨by decide, ?_, ?_⟩
  · have h := (read_from_fd_growth ( lone_reader_initialize 4) [[1, 2, 3, 4], [9]] (by decide)).1
    simpa using h
  · have h := (read_from_fd_growth ( lone_reader_initialize 4) [[1, 2, 3, 4], [9]] (by decide)).2
    simpa using h

/-- C8 (counterexample): two consecutive completely-filled reads of a 4-byte
buffer. The source grows the allocation additively to 12 bytes; doubling on
every complete read, as the claim states, would give 16. -/
theorem read_fd_loop_not_doubling :
    (lone_read_fd_loop 4 4 4 [] [[1, 2, 3, 4], [5, 6, 7, 8], [9]]).2.1 = 12 ∧
    (spec_read_fd_loop 4 4 4 [] [[1, 2, 3, 4], [5, 6, 7, 8], [9]]).2.1 = 16 ∧
    (12 : Nat) ≠ 16 :=
  ⟨rfl, rfl, by decide⟩

/-! C2: the load factor invariant of `lone_table_set`. -/

/-- C2: inserting into a table with positive capacity whose count is at most
half its capacity leaves the count at most half the (possibly doubled)
capacity; the capacity stays positive, and it is exactly doubled when the
pre-insertion count had reached half of capacity (the proactive check). -/
theorem table_set_keeps_load_factor (t : TableV) (key value : Value)
    (hcap : 0 < t.capacity) (hload : t.count ≤ t.capacity / 2) :
    (lone_table_set t key value).count ≤ (lone_table_set t key value).capacity / 2 ∧
    0 < (lone_table_set t key value).capacity ∧
    (t.capacity / 2 ≤ t.count → (lone_table_set t key value).capacity = t.capacity * 2) := by
  unfold lone_table_set
  rcases Nat.lt_or_ge t.count (t.capacity / 2) with hlt | hge
  · rw [if_neg (by omega)]
    rcases hb : (lone_table_entry_set t.entries t.capacity key value).1 with _ | _ <;>
      simp [hb] <;> omega
  · rw [if_pos (by omega)]
    have hcap2 : (lone_table_resize t (t.capacity * 2)).capacity = t.capacity * 2 := rfl
    have hcnt : (lone_table_resize t (t.capacity * 2)).count = t.count := rfl
    rcases hb : (lone_table_entry_set t.entries t.capacity key value).1 with _ | _ <;>
      simp [hb, hcap2, hcnt] <;> omega

/-- Witness for C2 at a fresh capacity-2 table. -/
theorem table_set_keeps_load_factor_witness :
    0 < (lone_table_create 2 Value.vnull).capacity ∧
    (lone_table_create 2 Value.vnull).count ≤ (lone_table_create 2 Value.vnull).capacity / 2 ∧
    (lone_table_set (lone_table_create 2 Value.vnull) (.symbol [97]) (.integer 1)).count ≤
      (lone_table_set (lone_table_create 2 Value.vnull) (.symbol [97]) (.integer 1)).capacity / 2 :=
  ⟨by decide, by decide,
    (table_set_keeps_load_factor (lone_table_create 2 Value.vnull) (.symbol [97]) (.integer 1)
      (by decide) (by decide)).1⟩

/-! C1: lookup after an insertion that triggered a resize. -/

/-- C1 (code bug): on a fresh capacity-2 table, set key `a` (byte 97) to 1,
then set key `c` (byte 99) to 2 — the second insertion triggers the resize,
after which `lone_table_set` passes its stale pre-resize `entries` and
`capacity` locals to `lone_table_entry_set`, so the pair lands in the freed
old array. A lookup of `c` immediately afterwards returns nil, not 2; the
lookup of `a` after its non-resizing insertion does return 1. -/
theorem table_set_after_resize_loses_key :
    lone_table_get (TableV.toValue (lone_table_set (lone_table_set (lone_table_create 2 .vnull)
        (.symbol [97]) (.integer 1)) (.symbol [99]) (.integer 2))) (.symbol [99]) = nilValue ∧
    nilValue ≠ Value.integer 2 ∧
    lone_table_get (TableV.toValue (lone_table_set (lone_table_create 2 .vnull)
        (.symbol [97]) (.integer 1))) (.symbol [97]) = Value.integer 1 :=
  ⟨rfl, fun h => Value.noConfusion h, rfl⟩

/-! C3: the probe loop's slot accesses. -/

/-- C3 (code bug): a capacity-2 table whose slot 1 holds key `d` (byte 100);
probing for key `b` (byte 98), whose hash position is 1, the loop advances
with `i = i < capacity ? i + 1 : 0` and reads `entries[2]` — the index list
it touches is `[1, 2]`, and 2 is not less than the capacity: the probe reads
one slot past the end of the entry array. -/
theorem probe_reads_slot_at_capacity :
    lone_table_probe_indices (.symbol [98])
        [emptyEntry, (Value.symbol [100], Value.integer 1)] 2 = [1, 2] ∧
    2 ∈ lone_table_probe_indices (.symbol [98])
        [emptyEntry, (Value.symbol [100], Value.integer 1)] 2 ∧
    ¬ ∀ i ∈ lone_table_probe_indices (.symbol [98])
        [emptyEntry, (Value.symbol [100], Value.integer 1)] 2, i < 2 := by
  refine ⟨rfl, ?_, ?_⟩
  · rw [(rfl : lone_table_probe_indices (.symbol [98])
      [emptyEntry, (Value.symbol [100], Value.integer 1)] 2 = [1, 2])]
    decide
  · rw [(rfl : lone_table_probe_indices (.symbol [98])
      [emptyEntry, (Value.symbol [100], Value.integer 1)] 2 = [1, 2])]
    decide

/-! C6: one read versus many small reads. -/

/-- C6 (code bug): the same seven input bytes `x (a b)` delivered in one
read produce the top-level values `x`, `(a b)`, nil (clean finish), but
delivered as three reads `x (a`, ` b`, `)` produce `x`, then `b`, and then a
fatal parse error: when the parse attempt that consumed the carried-over
tokens `(`, `a` signals "need more input", those tokens are destroyed, and
the next attempt re-lexes only the current buffer. The two value sequences
differ. -/
theorem chunked_reading_diverges :
    [120, 32, 40, 97] ++ [32, 98] ++ [41] = [120, 32, 40, 97, 32, 98, 41] ∧
    lone_run 10 [[120, 32, 40, 97, 32, 98, 41]] =
      ([.symbol [120], listOf [.symbol [97], .symbol [98]], nilValue], true) ∧
    lone_run 10 [[120, 32, 40, 97], [32, 98], [41]] =
      ([.symbol [120], .symbol [98]], false) ∧
    ([Value.symbol [120], listOf [.symbol [97], .symbol [98]], nilValue]
      ≠ [Value.symbol [120], Value.symbol [98]]) :=
  ⟨rfl, rfl, rfl, fun h => by
    have := congrArg List.length h
    simp at this⟩

/-! C4: deletion followed by lookup falls through to the prototype. -/

/-- The probe loop, given enough fuel, stops on a slot that is empty or
whose key is content-equal to the probed bytes (from any start position
within the array; the loop walks forward and the out-of-bounds read at index
`capacity` reads as an empty entry, so at most `capacity + 1 - i` iterations
happen). -/
theorem find_loop_result_empty_or_equal (kb : List Nat) (es : List (Value × Value)) (cap : Nat)
    (hlen : es.length = cap) :
    ∀ (fuel i : Nat), i ≤ cap → cap + 1 - i < fuel →
      (es.getD (lone_table_entry_find_loop fuel kb es cap i).1 emptyEntry).1.isNull = true ∨
      lone_bytes_equals
        ((es.getD (lone_table_entry_find_loop fuel kb es cap i).1 emptyEntry).1.bytesOf) kb
        = true := by
  intro fuel
  induction fuel with
  | zero => intro i hi hf; omega
  | succ fuel ih =>
    intro i hi hf
    by_cases hc : ((es.getD i emptyEntry).1.isNull
        || lone_bytes_equals (es.getD i emptyEntry).1.bytesOf kb) = true
    · simp only [lone_table_entry_find_loop, hc, if_true]
      simpa using hc
    · have hnn : ¬ (es.getD i emptyEntry).1.isNull = true := by
        intro h; exact hc (by rw [Bool.or_eq_true]; exact Or.inl h)
      have hilt : i < cap := by
        rcases Nat.lt_or_ge i cap with h | h
        · exact h
        · exfalso
          exact hnn (by rw [getD_of_length_le _ _ _ (by omega)]; rfl)
      have hstep : (if i < cap then i + 1 else 0) = i + 1 := if_pos hilt
      simp only [lone_table_entry_find_loop, hc, if_false, Bool.false_eq_true, hstep]
      exact ih (i + 1) (by omega) (by omega)

/-- The backward-shift loop only moves entries around and clears nothing, so
the entry array keeps its length. -/
theorem delete_loop_length (es : List (Value × Value)) (cap : Nat) :
    ∀ (fuel i j : Nat),
      (lone_table_delete_loop fuel es cap i j).1.length = es.length := by
  intro fuel
  induction fuel generalizing es with
  | zero => intro i j; rfl
  | succ fuel ih =>
    intro i j
    simp only [lone_table_delete_loop]
    split
    · rfl
    · split
      · rw [ih]; simp
      · rw [ih]

/-- The backward-shift loop's final hole index stays below the capacity. -/
theorem delete_loop_hole_lt (cap : Nat) (hcap : 0 < cap) :
    ∀ (fuel : Nat) (es : List (Value × Value)) (i j : Nat), i < cap → j < cap →
      (lone_table_delete_loop fuel es cap i j).2 < cap := by
  intro fuel
  induction fuel with
  | zero => intro es i j hi hj; exact hi
  | succ fuel ih =>
    intro es i j hi hj
    simp only [lone_table_delete_loop]
    split
    · exact hi
    · split
      · exact ih _ j ((j + 1) % cap) hj (Nat.mod_lt _ hcap)
      · exact ih _ i ((j + 1) % cap) hi (Nat.mod_lt _ hcap)

/-- The key invariant of backward-shift deletion: if every slot except the
current hole is empty-or-content-different for the probed key, the same
holds after the loop for its final hole (the loop only copies entries from
non-hole slots, which are all content-different). -/
theorem delete_loop_invariant (kb : List Nat) (cap : Nat) :
    ∀ (fuel : Nat) (es : List (Value × Value)) (i j : Nat),
      (∀ m, m ≠ i → slotOkay es kb m) →
      ∀ m, m ≠ (lone_table_delete_loop fuel es cap i j).2 →
        slotOkay (lone_table_delete_loop fuel es cap i j).1 kb m := by
  intro fuel
  induction fuel with
  | zero => intro es i j h m hm; exact h m hm
  | succ fuel ih =>
    intro es i j h m hm
    rw [lone_table_delete_loop] at hm ⊢
    by_cases hj : (es.getD j emptyEntry).1.isNull = true
    · simp only [hj, if_true] at hm ⊢
      exact h m hm
    · simp only [hj, Bool.false_eq_true, if_false] at hm ⊢
      by_cases hmove :
          (j > i ∧ (lone_table_compute_hash_for (es.getD j emptyEntry).1 cap ≤ i ∨
            lone_table_compute_hash_for (es.getD j emptyEntry).1 cap > j)) ∨
          (j < i ∧ (lone_table_compute_hash_for (es.getD j emptyEntry).1 cap ≤ i ∧
            lone_table_compute_hash_for (es.getD j emptyEntry).1 cap > j))
      · rw [if_pos hmove] at hm ⊢
        refine ih _ j ((j + 1) % cap) ?_ m hm
        intro m2 hm2
        by_cases hm2i : m2 = i
        · subst hm2i
          have hij : m2 ≠ j := hm2
          rcases Nat.lt_or_ge m2 es.length with hlt | hge
          · unfold slotOkay
            rw [getD_set_self _ _ _ _ hlt]
            have := h j (fun hji => hij hji.symm)
            unfold slotOkay at this
            rcases this with hnull | hne
            · exact absurd hnull hj
            · exact Or.inr hne
          · unfold slotOkay
            rw [getD_of_length_le _ _ _ (by simpa using hge)]
            exact Or.inl rfl
        · unfold slotOkay
          rw [getD_set_ne _ _ _ _ _ (fun he => hm2i he.symm)]
          exact h m2 hm2i
      · rw [if_neg hmove] at hm ⊢
        exact ih _ i ((j + 1) % cap) h m hm

/-- C4: for any table state whose entry array matches its capacity, has a
free slot (the C loop would diverge otherwise) and holds at most one slot
content-equal to the key, a lookup of the key immediately after
`lone_table_delete` of that key does not find it locally: it returns the
prototype-chain lookup when a non-null, non-nil prototype is set, and the
canonical nil value otherwise. (Deleting an absent key is a no-op and the
lookup falls through identically.) -/
theorem delete_then_lookup_falls_through (t : TableV) (key : Value)
    (hlen : t.entries.length = t.capacity) (hcap : 0 < t.capacity)
    (hempty : ∃ m, m < t.capacity ∧ (t.entries.getD m emptyEntry).1.isNull = true)
    (huniq : ∀ j1 j2, ¬ slotOkay t.entries key.bytesOf j1 →
      ¬ slotOkay t.entries key.bytesOf j2 → j1 = j2) :
    lone_table_get (TableV.toValue (lone_table_delete t key)) key =
      if (!t.prototype.isNull && !lone_is_nil t.prototype) = true
      then lone_table_get t.prototype key else nilValue := by
  by_cases h0 : (t.entries.getD
      (lone_table_entry_find_index_for key t.entries t.capacity) emptyEntry).1.isNull = true
  · have hd : lone_table_delete t key = t := by
      unfold lone_table_delete
      rw [if_pos h0]
    rw [hd]
    unfold TableV.toValue
    rw [lone_table_get]
    simp only [h0, Bool.not_true, Bool.false_eq_true, if_false]
  · have hfind := find_loop_result_empty_or_equal key.bytesOf t.entries t.capacity hlen
      (t.capacity + 2) (lone_table_compute_hash_for key t.capacity)
      (Nat.le_of_lt (Nat.mod_lt _ hcap)) (by omega)
    have heq : lone_bytes_equals
        ((t.entries.getD (lone_table_entry_find_index_for key t.entries t.capacity)
          emptyEntry).1.bytesOf) key.bytesOf = true := by
      rcases hfind with hnull | heq
      · exact absurd hnull h0
      · exact heq
    have hnotok : ¬ slotOkay t.entries key.bytesOf
        (lone_table_entry_find_index_for key t.entries t.capacity) := by
      unfold slotOkay
      rintro (h | h)
      · exact h0 h
      · exact absurd (heq.symm.trans h) (by decide)
    have hinv : ∀ m, m ≠ lone_table_entry_find_index_for key t.entries t.capacity →
        slotOkay t.entries key.bytesOf m := by
      intro m hm
      by_contra hbad
      exact hm (huniq m _ hbad hnotok)
    have hi0lt : lone_table_entry_find_index_for key t.entries t.capacity < t.capacity := by
      by_contra hge
      exact h0 (by rw [getD_of_length_le _ _ _ (by omega)]; rfl)
    have hd : lone_table_delete t key =
        { t with
          entries :=
            (lone_table_delete_loop (t.capacity + 1) t.entries t.capacity
              (lone_table_entry_find_index_for key t.entries t.capacity)
              ((lone_table_entry_find_index_for key t.entries t.capacity + 1)
                % t.capacity)).1.set
              (lone_table_delete_loop (t.capacity + 1) t.entries t.capacity
                (lone_table_entry_find_index_for key t.entries t.capacity)
                ((lone_table_entry_find_index_for key t.entries t.capacity + 1)
                  % t.capacity)).2 emptyEntry,
          count := t.count - 1 } := by
      unfold lone_table_delete
      rw [if_neg h0]
    rw [hd]
    set r := lone_table_delete_loop (t.capacity + 1) t.entries t.capacity
      (lone_table_entry_find_index_for key t.entries t.capacity)
      ((lone_table_entry_find_index_for key t.entries t.capacity + 1) % t.capacity) with hr
    have hlen2 : (r.1.set r.2 emptyEntry).length = t.capacity := by
      rw [List.length_set, delete_loop_length, hlen]
    have hhole : r.2 < t.capacity :=
      delete_loop_hole_lt t.capacity hcap _ t.entries _ _ hi0lt (Nat.mod_lt _ hcap)
    have hall : ∀ m, slotOkay (r.1.set r.2 emptyEntry) key.bytesOf m := by
      intro m
      by_cases hm : m = r.2
      · subst hm
        unfold slotOkay
        rw [getD_set_self _ _ _ _ (by rw [delete_loop_length, hlen]; exact hhole)]
        exact Or.inl rfl
      · unfold slotOkay
        rw [getD_set_ne _ _ _ _ _ (fun he => hm he.symm)]
        exact delete_loop_invariant key.bytesOf t.capacity _ t.entries _ _ hinv m hm
    have hfind2 := find_loop_result_empty_or_equal key.bytesOf (r.1.set r.2 emptyEntry)
      t.capacity hlen2 (t.capacity + 2) (lone_table_compute_hash_for key t.capacity)
      (Nat.le_of_lt (Nat.mod_lt _ hcap)) (by omega)
    have hidx : lone_table_entry_find_index_for key (r.1.set r.2 emptyEntry) t.capacity
        = (lone_table_entry_find_loop (t.capacity + 2) key.bytesOf (r.1.set r.2 emptyEntry)
            t.capacity (lone_table_compute_hash_for key t.capacity)).1 := rfl
    rw [← hidx] at hfind2
    have hnull2 : ((r.1.set r.2 emptyEntry).getD
        (lone_table_entry_find_index_for key (r.1.set r.2 emptyEntry) t.capacity)
        emptyEntry).1.isNull = true := by
      rcases hfind2 with hnull | heq2
      · exact hnull
      · rcases hall (lone_table_entry_find_index_for key (r.1.set r.2 emptyEntry) t.capacity)
          with hnull | hne
        · exact hnull
        · exact absurd (heq2.symm.trans hne) (by decide)
    unfold TableV.toValue
    rw [lone_table_get]
    simp only [hnull2, Bool.not_true, Bool.false_eq_true, if_false]

/-- Witness for C4: the spec's scenario. A parent table `{x: 1}` (key `x` is
byte 120), a child table of capacity 4 with the parent as prototype and no
own entries: deleting `x` from the child is a no-op that leaves the child
unchanged, the subsequent lookup of `x` falls through to the prototype and
yields `1`, and the parent's own `x` still yields `1`. -/
theorem delete_then_lookup_falls_through_witness :
    lone_table_get (TableV.toValue (lone_table_delete
        (lone_table_create 4 (TableV.toValue (lone_table_set (lone_table_create 4 .vnull)
          (.symbol [120]) (.integer 1)))) (.symbol [120]))) (.symbol [120])
      = lone_table_get (TableV.toValue (lone_table_set (lone_table_create 4 .vnull)
          (.symbol [120]) (.integer 1))) (.symbol [120]) ∧
    lone_table_get (TableV.toValue (lone_table_set (lone_table_create 4 .vnull)
        (.symbol [120]) (.integer 1))) (.symbol [120]) = Value.integer 1 ∧
    lone_table_delete (lone_table_create 4 (TableV.toValue (lone_table_set
        (lone_table_create 4 .vnull) (.symbol [120]) (.integer 1)))) (.symbol [120])
      = lone_table_create 4 (TableV.toValue (lone_table_set (lone_table_create 4 .vnull)
          (.symbol [120]) (.integer 1))) := by
  refine ⟨?_, rfl, rfl⟩
  have h := delete_then_lookup_falls_through
    (lone_table_create 4 (TableV.toValue (lone_table_set (lone_table_create 4 .vnull)
      (.symbol [120]) (.integer 1)))) (.symbol [120])
    rfl (by decide) ⟨0, by decide, rfl⟩
    (by
      intro j1 j2 h1 h2
      exfalso
      apply h1
      unfold slotOkay
      by_cases hj : j1 < 4
      · interval_cases j1 <;> exact Or.inl rfl
      · rw [getD_of_length_le _ _ _ (by simpa using Nat.le_of_not_lt hj)]
        exact Or.inl rfl)
  exact h.trans rfl

/-! C7: an unterminated text never yields a token list. -/

theorem length_dropWhile_le {α : Type} (p : α → Bool) (l : List α) :
    (l.dropWhile p).length ≤ l.length := by
  induction l with
  | nil => simp
  | cons a as ih =>
    by_cases hp : p a = true
    · rw [List.dropWhile_cons_of_pos hp]
      exact Nat.le_succ_of_le ih
    · rw [List.dropWhile_cons_of_neg hp]

/-- A successful symbol consumption returns a suffix after at least the
first byte whenever the first byte is not a token stopper. -/
theorem consume_symbol_shrinks (c : Nat) (rest rest' : List Nat) (v : Value)
    (hc : isTokenByte c = true)
    (h : lone_lexer_consume_symbol (c :: rest) = some (v, rest')) :
    rest'.length < (c :: rest).length := by
  unfold lone_lexer_consume_symbol at h
  have hr : rest' = (c :: rest).dropWhile isTokenByte := by
    cases h
    rfl
  rw [hr, List.dropWhile_cons_of_pos hc]
  exact Nat.lt_succ_of_le (length_dropWhile_le _ _)

/-- A successful number consumption consumes at least its first digit. -/
theorem consume_number_shrinks (input rest' : List Nat) (v : Value)
    (h : lone_lexer_consume_number input = some (v, rest')) :
    rest'.length < input.length := by
  unfold lone_lexer_consume_number at h
  rcases input with _ | ⟨b, bs⟩
  · exact absurd h (by simp)
  · simp only at h
    rcases hdrop : (b :: bs).drop (if b = 43 ∨ b = 45 then 1 else 0) with _ | ⟨d, ds⟩
    · rw [hdrop] at h
      exact absurd h (by simp)
    · rw [hdrop] at h
      dsimp only at h
      by_cases hd : lone_lexer_match_byte d 49 = true
      · rw [if_pos hd] at h
        have hlendrop : (d :: ds).length ≤ (b :: bs).length := by
          rw [← hdrop, List.length_drop]
          omega
        have hr : rest' = (d :: ds).dropWhile (fun x => lone_lexer_match_byte x 49) := by
          rcases hrest : (d :: ds).dropWhile (fun x => lone_lexer_match_byte x 49)
            with _ | ⟨x, xs⟩
          · rw [hrest] at h
            dsimp only at h
            cases h
            rfl
          · rw [hrest] at h
            dsimp only at h
            by_cases hbad : x ≠ 41 ∧ ¬ lone_lexer_match_byte x 32 = true
            · rw [if_pos hbad] at h
              exact absurd h (by simp)
            · rw [if_neg hbad] at h
              cases h
              rfl
        have hstep : List.dropWhile (fun x => lone_lexer_match_byte x 49) (d :: ds)
            = List.dropWhile (fun x => lone_lexer_match_byte x 49) ds :=
          List.dropWhile_cons_of_pos hd
        rw [hr, hstep]
        calc (List.dropWhile (fun x => lone_lexer_match_byte x 49) ds).length
            ≤ ds.length := length_dropWhile_le _ _
          _ < (d :: ds).length := by simp
          _ ≤ (b :: bs).length := hlendrop
      · rw [if_neg hd] at h
        exact absurd h (by simp)

/-- A successful text consumption consumes at least the opening quote and
the closing quote. -/
theorem consume_text_shrinks (input rest' : List Nat) (v : Value)
    (h : lone_lexer_consume_text input = some (v, rest')) :
    rest'.length < input.length := by
  unfold lone_lexer_consume_text at h
  rcases input with _ | ⟨b, bs⟩
  · exact absurd h (by simp)
  · by_cases hb : b = 34
    · subst hb
      simp only at h
      rcases hdrop : bs.dropWhile (fun x => x ≠ 34) with _ | ⟨q, after⟩
      · rw [hdrop] at h
        exact absurd h (by simp)
      · rw [hdrop] at h
        dsimp only at h
        rcases after with _ | ⟨x, xs⟩
        · exact absurd h (by simp)
        · dsimp only at h
          by_cases hbad : x ≠ 41 ∧ ¬ lone_lexer_match_byte x 32 = true
          · rw [if_pos hbad] at h
            exact absurd h (by simp)
          · rw [if_neg hbad] at h
            cases h
            have : (q :: x :: xs).length ≤ bs.length := by
              rw [← hdrop]
              exact length_dropWhile_le _ _
            simp only [List.length_cons] at this ⊢
            omega
    · rcases hb2 : b with _ | n
      · subst hb2; exact absurd h (by simp)
      · subst hb2
        exact absurd h (by simp [hb])

/-- A successful parenthesis consumption consumes exactly one byte. -/
theorem consume_parenthesis_shrinks (input rest' : List Nat) (v : Value)
    (h : lone_lexer_consume_parenthesis input = some (v, rest')) :
    rest'.length < input.length := by
  unfold lone_lexer_consume_parenthesis at h
  rcases input with _ | ⟨b, bs⟩
  · exact absurd h (by simp)
  · by_cases h40 : b = 40
    · subst h40
      cases h
      simp
    · by_cases h41 : b = 41
      · subst h41
        cases h
        simp
      · rcases b with _ | _ | b <;> first
          | (exact absurd h (by simp))
          | (exact absurd h (by simp [show ¬ (b + 2 = 40) from fun hh => h40 hh,
              show ¬ (b + 2 = 41) from fun hh => h41 hh]))

/-- One successful dispatcher step on a non-whitespace byte consumes at
least one byte of input. -/
theorem lex_step_shrinks (c : Nat) (rest rest' : List Nat) (v : Value)
    (hws : lone_lexer_match_byte c 32 = false)
    (h : lone_lex_step (c :: rest) = some (v, rest')) :
    rest'.length < (c :: rest).length := by
  have htok : c ≠ 41 → isTokenByte c = true := by
    intro hne
    unfold isTokenByte
    rw [hws]
    simp [hne]
  unfold lone_lex_step at h
  dsimp only at h
  by_cases hpm : c = 43 ∨ c = 45
  · rw [if_pos hpm] at h
    rcases rest with _ | ⟨c1, cs⟩
    · exact consume_symbol_shrinks c [] rest' v (htok (by omega)) h
    · dsimp only at h
      by_cases hd : lone_lexer_match_byte c1 49 = true
      · rw [if_pos hd] at h
        exact consume_number_shrinks _ _ _ h
      · rw [if_neg hd] at h
        exact consume_symbol_shrinks c (c1 :: cs) rest' v (htok (by omega)) h
  · rw [if_neg hpm] at h
    by_cases hdig : 48 ≤ c ∧ c ≤ 57
    · rw [if_pos hdig] at h
      exact consume_number_shrinks _ _ _ h
    · rw [if_neg hdig] at h
      by_cases hq : c = 34
      · rw [if_pos hq] at h
        exact consume_text_shrinks _ _ _ h
      · rw [if_neg hq] at h
        by_cases hp : c = 40 ∨ c = 41
        · rw [if_pos hp] at h
          exact consume_parenthesis_shrinks _ _ _ h
        · rw [if_neg hp] at h
          exact consume_symbol_shrinks c rest rest' v (htok (by omega)) h

/-- The lexer loop is fuel-irrelevant above its canonical fuel. -/
theorem lex_loop_fuel_irrelevant :
    ∀ (fuel1 fuel2 : Nat) (s : List Nat), s.length < fuel1 → s.length < fuel2 →
      lone_lex_loop fuel1 s = lone_lex_loop fuel2 s := by
  intro fuel1
  induction fuel1 with
  | zero => intro fuel2 s h1 h2; omega
  | succ fuel1 ih =>
    intro fuel2 s h1 h2
    rcases fuel2 with _ | fuel2
    · omega
    · rcases s with _ | ⟨c, rest⟩
      · rfl
      · simp only [lone_lex_loop]
        by_cases hws : lone_lexer_match_byte c 32 = true
        · rw [if_pos hws, if_pos hws]
          exact ih fuel2 rest (by simpa using h1) (by simpa using h2)
        · rw [if_neg hws, if_neg hws]
          rcases hstep : lone_lex_step (c :: rest) with _ | ⟨v, rest'⟩
          · rfl
          · have hlt := lex_step_shrinks c rest rest' v (by simpa using hws) hstep
            simp only [List.length_cons] at h1 h2 hlt
            dsimp only
            rw [ih fuel2 rest' (by omega) (by omega)]

/-- C7: whenever the lexer reaches an opening double quote that has no
matching closing quote before the end of the input, `lone_lex` returns no
token list: the consume-text helper scans to the end of the input, and the C
then increments the null pointer `peek` returned and dereferences address 1,
terminating the process (modelled as `none`; the `return 1` failure paths
reach `lex_failed` and `linux_exit(-1)` with the same observable outcome). -/
theorem unterminated_text_never_lexes (input s : List Nat)
    (hreach : LexReaches input (34 :: s)) (hnoq : ∀ b ∈ s, b ≠ 34) :
    lone_lex input = none := by
  have aux : ∀ (inp s2 : List Nat), LexReaches inp s2 →
      ∀ s3, s2 = 34 :: s3 → (∀ b ∈ s3, b ≠ 34) → lone_lex inp = none := by
    intro inp s2 hr
    induction hr with
    | refl s0 =>
      intro s3 heq hnq
      subst heq
      unfold lone_lex
      simp only [List.length_cons, lone_lex_loop]
      rw [if_neg (by decide)]
      have hdrop : s3.dropWhile (fun b => b ≠ 34) = [] := by
        rw [List.dropWhile_eq_nil_iff]
        intro x hx
        simpa using hnq x hx
      have hstep : lone_lex_step (34 :: s3) = none := by
        unfold lone_lex_step lone_lexer_consume_text
        simp only [hdrop]
        rfl
      rw [hstep]
    | ws c rest s2 hws hr ih =>
      intro s3 heq hnq
      unfold lone_lex
      simp only [List.length_cons, lone_lex_loop]
      rw [if_pos hws]
      exact ih s3 heq hnq
    | tok c rest rest' s2 v hws hstep hr ih =>
      intro s3 heq hnq
      unfold lone_lex
      simp only [List.length_cons, lone_lex_loop]
      rw [if_neg (by simp [hws]), hstep]
      have hlt := lex_step_shrinks c rest rest' v hws hstep
      simp only [List.length_cons] at hlt
      dsimp only
      rw [lex_loop_fuel_irrelevant (rest.length + 1) (rest'.length + 1) rest' (by omega)
        (by omega)]
      have hnone := ih s3 heq hnq
      unfold lone_lex at hnone
      rw [hnone]
      rfl
  exact aux input (34 :: s) hreach s rfl hnoq

/-- Witness for C7: the input `( "a` — after consuming the parenthesis token
and skipping the space, the lexer reaches the quote, which is never closed;
no token list is produced. -/
theorem unterminated_text_never_lexes_witness :
    LexReaches [40, 32, 34, 97] (34 :: [97]) ∧ (∀ b ∈ [97], b ≠ 34) ∧
    lone_lex [40, 32, 34, 97] = none := by
  have hreach : LexReaches [40, 32, 34, 97] (34 :: [97]) :=
    .tok 40 [32, 34, 97] [32, 34, 97] (34 :: [97]) (.symbol [40]) rfl rfl
      (.ws 32 [34, 97] (34 :: [97]) rfl (.refl _))
  exact ⟨hreach, by decide,
    unterminated_text_never_lexes [40, 32, 34, 97] [97] hreach (by decide)⟩

/-! C5: the print/parse round trip. First, integer printing and parsing. -/

theorem wrap64_eq_self (x : Int) (h1 : -(2 ^ 63) ≤ x) (h2 : x < 2 ^ 63) : wrap64 x = x := by
  unfold wrap64
  rw [Int.emod_eq_of_lt (by omega) (by omega)]
  omega

theorem tmod_ten_eq_emod (m : Int) (h : 0 ≤ m) : m.tmod 10 = m % 10 := by
  have h1 := Int.tmod_add_tdiv m 10
  have h2 := Int.emod_add_ediv m 10
  rw [Int.tdiv_eq_ediv h (by norm_num)] at h1
  omega

theorem tdiv_ten_eq_ediv (m : Int) (h : 0 ≤ m) : m.tdiv 10 = m / 10 :=
  Int.tdiv_eq_ediv h (by norm_num)

/-- The digit loop of the integer printer, on a nonnegative long small
enough for its fuel: every output byte is a decimal digit character, the
output is nonempty, and folding the parser's accumulation step over the
output recovers the number. -/
theorem print_integer_digits_spec :
    ∀ (fuel : Nat) (m : Int), 0 ≤ m → m < 2 ^ 63 → m < 10 ^ (fuel + 1) →
      (∀ b ∈ lone_print_integer_digits (fuel + 1) m, 48 ≤ b ∧ b ≤ 57) ∧
      lone_print_integer_digits (fuel + 1) m ≠ [] ∧
      (lone_print_integer_digits (fuel + 1) m).foldl lone_integer_parse_step 0 = m := by
  intro fuel
  induction fuel with
  | zero =>
    intro m h0 h63 hsmall
    have hm10 : m < 10 := by simpa using hsmall
    have hmod : m.tmod 10 = m := by
      rw [tmod_ten_eq_emod m h0, Int.emod_eq_of_lt h0 hm10]
    have hdiv : m.tdiv 10 = 0 := by
      rw [tdiv_ten_eq_ediv m h0]
      omega
    simp only [lone_print_integer_digits, hdiv, hmod]
    rw [if_neg (by omega)]
    refine ⟨?_, by simp, ?_⟩
    · intro b hb
      simp only [List.nil_append, List.mem_singleton] at hb
      subst hb
      omega
    · simp only [List.nil_append, List.foldl_cons, List.foldl_nil, lone_integer_parse_step]
      have ht : ((48 + m).toNat : Int) = 48 + m := Int.toNat_of_nonneg (by omega)
      rw [Int.zero_mul, wrap64_eq_self 0 (by norm_num) (by norm_num), ht, Int.zero_add]
      have hsimpl : (48 : Int) + m - 48 = m := by ring
      rw [hsimpl, wrap64_eq_self m (by omega) h63]
  | succ fuel ih =>
    intro m h0 h63 hsmall
    have hmodb : 0 ≤ m.tmod 10 ∧ m.tmod 10 < 10 := by
      rw [tmod_ten_eq_emod m h0]
      constructor
      · exact Int.emod_nonneg m (by norm_num)
      · exact Int.emod_lt_of_pos m (by norm_num)
    have heq : m.tmod 10 + 10 * m.tdiv 10 = m := Int.tmod_add_tdiv m 10
    rcases Nat.lt_or_ge m.toNat 10 with hm10 | hm10
    · have hm10i : m < 10 := by omega
      have hmod : m.tmod 10 = m := by
        rw [tmod_ten_eq_emod m h0, Int.emod_eq_of_lt h0 hm10i]
      have hdiv : m.tdiv 10 = 0 := by
        rw [tdiv_ten_eq_ediv m h0]
        omega
      simp only [lone_print_integer_digits, hdiv, hmod]
      rw [if_neg (by omega)]
      refine ⟨?_, by simp, ?_⟩
      · intro b hb
        simp only [List.nil_append, List.mem_singleton] at hb
        subst hb
        omega
      · simp only [List.nil_append, List.foldl_cons, List.foldl_nil, lone_integer_parse_step]
        have ht : ((48 + m).toNat : Int) = 48 + m := Int.toNat_of_nonneg (by omega)
        rw [Int.zero_mul, wrap64_eq_self 0 (by norm_num) (by norm_num), ht, Int.zero_add]
        have hsimpl : (48 : Int) + m - 48 = m := by ring
        rw [hsimpl, wrap64_eq_self m (by omega) h63]
    · have hdivpos : 0 < m.tdiv 10 := by
        rw [tdiv_ten_eq_ediv m h0]
        omega
      have hdiv0 : 0 ≤ m.tdiv 10 := le_of_lt hdivpos
      have hdiv63 : m.tdiv 10 < 2 ^ 63 := by
        rw [tdiv_ten_eq_ediv m h0] at hdivpos ⊢
        omega
      have hdivsmall : m.tdiv 10 < 10 ^ (fuel + 1) := by
        rw [tdiv_ten_eq_ediv m h0]
        have : (10 : Int) ^ (fuel + 1 + 1) = 10 ^ (fuel + 1) * 10 := by ring
        rw [this] at hsmall
        omega
      obtain ⟨hdigits, hne, hfold⟩ := ih (m.tdiv 10) hdiv0 hdiv63 hdivsmall
      have hunfold : lone_print_integer_digits (fuel + 1 + 1) m =
          lone_print_integer_digits (fuel + 1) (m.tdiv 10) ++ [(48 + m.tmod 10).toNat] := by
        simp only [lone_print_integer_digits]
        rw [if_pos hdivpos]
      rw [hunfold]
      refine ⟨?_, by simp, ?_⟩
      · intro b hb
        rcases List.mem_append.mp hb with hb | hb
        · exact hdigits b hb
        · simp only [List.mem_singleton] at hb
          subst hb
          omega
      · rw [List.foldl_append, hfold]
        simp only [List.foldl_cons, List.foldl_nil, lone_integer_parse_step]
        have ht : (((48 + m.tmod 10).toNat : Nat) : Int) = 48 + m.tmod 10 :=
          Int.toNat_of_nonneg (by omega)
        rw [ht, wrap64_eq_self (m.tdiv 10 * 10) (by omega) (by omega)]
        have hm : m.tdiv 10 * 10 + (48 + m.tmod 10 - 48) = m := by omega
        rw [hm, wrap64_eq_self m (by omega) h63]

/-- The printed form of an in-range long: for a nonnegative value, its
decimal digit run; for a negative value, a minus sign followed by the digit
run of its negation; in both cases the digit bytes are decimal digit
characters and `lone_integer_parse` recovers the value. -/
theorem print_integer_spec (n : Int) (h1 : -(2 ^ 63) < n) (h2 : n < 2 ^ 63) :
    (∃ ds, (0 ≤ n ∧ lone_print_integer n = ds ∨
            n < 0 ∧ lone_print_integer n = 45 :: ds) ∧
      ds ≠ [] ∧ (∀ b ∈ ds, 48 ≤ b ∧ b ≤ 57)) ∧
    lone_integer_parse (lone_print_integer n) = .integer n := by
  have h21 : (2 : Int) ^ 63 < 10 ^ (20 + 1) := by norm_num
  rcases Int.lt_or_le n 0 with hneg | hpos
  · have hm0 : 0 ≤ -n := by omega
    have hm63 : -n < 2 ^ 63 := by omega
    obtain ⟨hdigits, hne, hfold⟩ := print_integer_digits_spec 20 (-n) hm0 hm63 (by omega)
    have hw : wrap64 (-n) = -n := wrap64_eq_self (-n) (by omega) hm63
    have hprint : lone_print_integer n = 45 :: lone_print_integer_digits 21 (-n) := by
      unfold lone_print_integer
      dsimp only
      rw [if_pos hneg, if_pos hneg, hw]
      rfl
    refine ⟨⟨lone_print_integer_digits 21 (-n), Or.inr ⟨hneg, hprint⟩, hne, hdigits⟩, ?_⟩
    rw [hprint]
    unfold lone_integer_parse
    dsimp only
    rw [List.head?_cons, if_pos (Or.inr rfl), if_pos rfl]
    simp only [List.drop_one, List.tail_cons]
    rw [hfold]
    have hnn : - -n = n := by ring
    rw [hnn, wrap64_eq_self n (by omega) h2]
  · obtain ⟨hdigits, hne, hfold⟩ := print_integer_digits_spec 20 n hpos h2 (by omega)
    have hprint : lone_print_integer n = lone_print_integer_digits 21 n := by
      unfold lone_print_integer
      dsimp only
      rw [if_neg (by omega), if_neg (by omega)]
      rfl
    refine ⟨⟨lone_print_integer_digits 21 n, Or.inl ⟨hpos, hprint⟩, hne, hdigits⟩, ?_⟩
    rw [hprint]
    unfold lone_integer_parse
    rcases hds : lone_print_integer_digits 21 n with _ | ⟨d, ds⟩
    · exact absurd hds hne
    · have hd : 48 ≤ d ∧ d ≤ 57 := hdigits d (by rw [hds]; simp)
      simp only [List.head?_cons]
      rw [if_neg (by simp; omega), if_neg (by simp; omega)]
      simp only [List.drop_zero]
      rw [← hds, hfold]

/-! Lexer composition lemmas for the round trip. A "separator head"
hypothesis `∀ x, rest.head? = some x → x = 41 ∨ lone_lexer_match_byte x 32 =
true` covers both the end of input and a following closing parenthesis or
whitespace byte. -/

theorem takeWhile_append_all {α : Type} (p : α → Bool) (xs ys : List α)
    (h : ∀ x ∈ xs, p x = true) :
    (xs ++ ys).takeWhile p = xs ++ ys.takeWhile p := by
  induction xs with
  | nil => rfl
  | cons a as ih =>
    rw [List.cons_append, List.takeWhile_cons_of_pos (h a (by simp)), List.cons_append,
      ih (fun x hx => h x (by simp [hx]))]

theorem dropWhile_append_all {α : Type} (p : α → Bool) (xs ys : List α)
    (h : ∀ x ∈ xs, p x = true) :
    (xs ++ ys).dropWhile p = ys.dropWhile p := by
  induction xs with
  | nil => rfl
  | cons a as ih =>
    rw [List.cons_append, List.dropWhile_cons_of_pos (h a (by simp)),
      ih (fun x hx => h x (by simp [hx]))]

theorem takeWhile_head_sep {α : Type} (p : α → Bool) (ys : List α)
    (h : ∀ x, ys.head? = some x → p x = false) : ys.takeWhile p = [] := by
  cases ys with
  | nil => rfl
  | cons a as => exact List.takeWhile_cons_of_neg (by simp [h a rfl])

theorem dropWhile_head_sep {α : Type} (p : α → Bool) (ys : List α)
    (h : ∀ x, ys.head? = some x → p x = false) : ys.dropWhile p = ys := by
  cases ys with
  | nil => rfl
  | cons a as => exact List.dropWhile_cons_of_neg (by simp [h a rfl])

/-- A separator byte is whitespace or a closing parenthesis, and therefore
is not a token byte, not a digit, not a quote and not an opening
parenthesis. -/
theorem sep_byte_facts (x : Nat) (h : x = 41 ∨ lone_lexer_match_byte x 32 = true) :
    isTokenByte x = false ∧ lone_lexer_match_byte x 49 = false ∧ x ≠ 34 ∧ x ≠ 40 := by
  have hx : x = 41 ∨ x = 32 ∨ x = 9 ∨ x = 10 := by
    rcases h with h | h
    · exact Or.inl h
    · unfold lone_lexer_match_byte at h
      rw [if_pos rfl] at h
      simp only [Bool.or_eq_true, decide_eq_true_eq] at h
      tauto
  rcases hx with rfl | rfl | rfl | rfl <;> exact ⟨by decide, by decide, by decide, by decide⟩

/-- A byte in the decimal digit range matches the digit target. -/
theorem match_digit_true (b : Nat) (h48 : 48 ≤ b) (h57 : b ≤ 57) :
    lone_lexer_match_byte b 49 = true := by
  unfold lone_lexer_match_byte
  rw [if_neg (by omega), if_pos (by omega)]
  simp only [Bool.and_eq_true, decide_eq_true_eq]
  omega

/-- A byte outside the decimal digit range does not match the digit target. -/
theorem match_digit_false (b : Nat) (h : ¬ (48 ≤ b ∧ b ≤ 57)) :
    lone_lexer_match_byte b 49 = false := by
  unfold lone_lexer_match_byte
  rw [if_neg (by omega), if_pos (by omega)]
  by_cases h48 : 48 ≤ b
  · have h57 : ¬ b ≤ 57 := fun hh => h ⟨h48, hh⟩
    simp [h57]
  · simp [h48]

/-- Skipping one whitespace byte does not change the lexer's output. -/
theorem lex_cons_ws (c : Nat) (t : List Nat) (h : lone_lexer_match_byte c 32 = true) :
    lone_lex (c :: t) = lone_lex t := by
  unfold lone_lex
  simp only [List.length_cons, lone_lex_loop]
  rw [if_pos h]

/-- One successful dispatcher step prepends its token to the lexing of the
remainder. -/
theorem lex_cons_step (c : Nat) (t rest2 : List Nat) (tok : Value)
    (hws : lone_lexer_match_byte c 32 = false)
    (hstep : lone_lex_step (c :: t) = some (tok, rest2)) :
    lone_lex (c :: t) = (lone_lex rest2).map (tok :: ·) := by
  unfold lone_lex
  simp only [List.length_cons, lone_lex_loop]
  rw [if_neg (by simp [hws]), hstep]
  have hlt := lex_step_shrinks c t rest2 tok hws hstep
  simp only [List.length_cons] at hlt
  dsimp only
  rw [lex_loop_fuel_irrelevant (t.length + 1) (rest2.length + 1) rest2 (by omega) (by omega)]

/-- The dispatcher on an opening parenthesis. -/
theorem lex_step_lparen (t : List Nat) :
    lone_lex_step (40 :: t) = some (.symbol [40], t) := rfl

/-- The dispatcher on a closing parenthesis. -/
theorem lex_step_rparen (t : List Nat) :
    lone_lex_step (41 :: t) = some (.symbol [41], t) := rfl

/-- The dispatcher consumes a printed in-range integer up to a separator
head as one integer token that parses back to the same value. -/
theorem lex_step_print_integer (n : Int) (h1 : -(2 ^ 63) < n) (h2 : n < 2 ^ 63)
    (rest : List Nat)
    (hsep : ∀ x, rest.head? = some x → x = 41 ∨ lone_lexer_match_byte x 32 = true) :
    lone_lex_step (lone_print_integer n ++ rest) = some (.integer n, rest) := by
  obtain ⟨⟨ds, hcase, hne, hdigits⟩, hparse⟩ := print_integer_spec n h1 h2
  have hdigit_p : ∀ x ∈ ds, lone_lexer_match_byte x 49 = true := by
    intro x hx
    exact match_digit_true x (hdigits x hx).1 (hdigits x hx).2
  have hsep_digit : ∀ x, rest.head? = some x → lone_lexer_match_byte x 49 = false :=
    fun x hx => (sep_byte_facts x (hsep x hx)).2.1
  rcases hds : ds with _ | ⟨d0, ds'⟩
  · exact absurd hds hne
  subst hds
  have hd0 : 48 ≤ d0 ∧ d0 ≤ 57 := hdigits d0 (by simp)
  have htake : (d0 :: (ds' ++ rest)).takeWhile (fun x => lone_lexer_match_byte x 49)
      = d0 :: ds' := by
    rw [← List.cons_append, takeWhile_append_all _ _ rest hdigit_p,
      takeWhile_head_sep _ rest hsep_digit, List.append_nil]
  have hdrop : (d0 :: (ds' ++ rest)).dropWhile (fun x => lone_lexer_match_byte x 49)
      = rest := by
    rw [← List.cons_append, dropWhile_append_all _ _ rest hdigit_p,
      dropWhile_head_sep _ rest hsep_digit]
  have hconsume : lone_lexer_consume_number ((d0 :: ds') ++ rest) =
      some (lone_integer_parse (d0 :: ds'), rest) := by
    unfold lone_lexer_consume_number
    rw [List.cons_append]
    dsimp only
    have h43 : (if d0 = 43 ∨ d0 = 45 then 1 else 0) = 0 := by
      rw [if_neg (by omega)]
    simp only [h43, List.drop_zero]
    rw [if_pos (hdigit_p d0 (by simp))]
    simp only [htake, hdrop]
    have htok : (d0 :: (ds' ++ rest)).take (0 + (d0 :: ds').length) = d0 :: ds' := by
      rw [Nat.zero_add, ← List.cons_append, List.take_left]
    rcases rest with _ | ⟨x, xs⟩
    · dsimp only
      rw [htok]
    · have hx := hsep x rfl
      dsimp only
      rw [if_neg (by tauto), htok]
  have hconsume_signed : lone_lexer_consume_number (45 :: ((d0 :: ds') ++ rest)) =
      some (lone_integer_parse (45 :: d0 :: ds'), rest) := by
    unfold lone_lexer_consume_number
    rw [List.cons_append]
    dsimp only
    have h45 : (if (45 : Nat) = 43 ∨ True then 1 else 0) = 1 := by
      rw [if_pos (Or.inr trivial)]
    simp only [h45, List.drop_succ_cons, List.drop_zero]
    rw [if_pos (hdigit_p d0 (by simp))]
    simp only [htake, hdrop]
    have htok : (45 :: d0 :: (ds' ++ rest)).take (1 + (d0 :: ds').length)
        = 45 :: d0 :: ds' := by
      have hone : (1 : Nat) + (d0 :: ds').length = (d0 :: ds').length + 1 := by omega
      rw [hone, List.take_succ_cons, ← List.cons_append, List.take_left]
    rcases rest with _ | ⟨x, xs⟩
    · dsimp only
      rw [htok]
    · have hx := hsep x rfl
      dsimp only
      rw [if_neg (by tauto), htok]
  rcases hcase with ⟨hpos, hprint⟩ | ⟨hneg, hprint⟩
  · rw [hprint]
    unfold lone_lex_step
    rw [List.cons_append]
    dsimp only
    rw [if_neg (by omega), if_pos (by omega)]
    rw [← List.cons_append, hconsume, ← hprint, hparse]
  · rw [hprint]
    unfold lone_lex_step
    rw [List.cons_append, List.cons_append]
    dsimp only
    rw [if_pos (Or.inr rfl), if_pos (hdigit_p d0 (by simp))]
    rw [← List.cons_append, hconsume_signed, ← hprint, hparse]

/-- A token byte is not whitespace. -/
theorem tokenByte_not_ws (b : Nat) (h : isTokenByte b = true) :
    lone_lexer_match_byte b 32 = false := by
  unfold isTokenByte at h
  simp only [Bool.and_eq_true, Bool.not_eq_eq_eq_not, Bool.not_true] at h
  exact h.2

/-- The dispatcher consumes a printed good symbol up to a separator head as
one symbol token carrying exactly its bytes. -/
theorem lex_step_print_symbol (bs rest : List Nat)
    (hne : bs ≠ [])
    (htok : ∀ b ∈ bs, isTokenByte b = true)
    (hhead : ∀ d, bs.head? = some d → ¬(48 ≤ d ∧ d ≤ 57) ∧ d ≠ 34 ∧ d ≠ 40)
    (hsign : (bs.head? = some 43 ∨ bs.head? = some 45) →
      ∀ d, bs.get? 1 = some d → ¬(48 ≤ d ∧ d ≤ 57))
    (hsep : ∀ x, rest.head? = some x → x = 41 ∨ lone_lexer_match_byte x 32 = true) :
    lone_lex_step (bs ++ rest) = some (.symbol bs, rest) := by
  rcases bs with _ | ⟨b0, bs'⟩
  · exact absurd rfl hne
  have hb0 := hhead b0 rfl
  have hb0tok := htok b0 (by simp)
  have hb0ne41 : b0 ≠ 41 := by
    intro he
    rw [he] at hb0tok
    exact absurd hb0tok (by decide)
  have hsep_tok : ∀ x, rest.head? = some x → isTokenByte x = false :=
    fun x hx => (sep_byte_facts x (hsep x hx)).1
  have hconsume : lone_lexer_consume_symbol ((b0 :: bs') ++ rest)
      = some (.symbol (b0 :: bs'), rest) := by
    unfold lone_lexer_consume_symbol
    rw [List.cons_append]
    dsimp only
    rw [← List.cons_append, takeWhile_append_all _ _ rest htok,
      takeWhile_head_sep _ rest hsep_tok, List.append_nil,
      dropWhile_append_all _ _ rest htok, dropWhile_head_sep _ rest hsep_tok]
  unfold lone_lex_step
  rw [List.cons_append]
  dsimp only
  rw [List.cons_append] at hconsume
  by_cases hpm : b0 = 43 ∨ b0 = 45
  · rw [if_pos hpm]
    have hlookahead : ∀ c1, (bs' ++ rest).head? = some c1 →
        lone_lexer_match_byte c1 49 = false := by
      intro c1 hc1
      rcases hbs : bs' with _ | ⟨b1, bs''⟩
      · rw [hbs] at hc1
        exact (sep_byte_facts c1 (hsep c1 (by simpa using hc1))).2.1
      · rw [hbs] at hc1
        simp only [List.cons_append, List.head?_cons, Option.some.injEq] at hc1
        have hb1 := hsign (by rcases hpm with h | h <;> simp [h]) b1 (by rw [hbs]; rfl)
        rw [← hc1]
        exact match_digit_false b1 hb1
    cases hbr : bs' ++ rest with
    | nil =>
      rw [hbr] at hconsume
      exact hconsume
    | cons c1 t1 =>
      dsimp only
      rw [if_neg (by simp [hlookahead c1 (by rw [hbr]; rfl)])]
      rw [hbr] at hconsume
      exact hconsume
  · rw [if_neg hpm, if_neg (by tauto), if_neg (by tauto), if_neg (by tauto)]
    exact hconsume

/-- The dispatcher consumes a printed text (no interior quote) followed by a
separator byte as one text token carrying its content bytes. -/
theorem lex_step_print_text (bs : List Nat) (x : Nat) (xs : List Nat)
    (hq : ∀ b ∈ bs, b ≠ 34)
    (hx : x = 41 ∨ lone_lexer_match_byte x 32 = true) :
    lone_lex_step ((34 :: (bs ++ [34])) ++ (x :: xs)) = some (.text bs, x :: xs) := by
  have hq_p : ∀ b ∈ bs, (fun b => decide (b ≠ 34)) b = true := by
    intro b hb
    simpa using hq b hb
  unfold lone_lex_step
  rw [List.cons_append]
  dsimp only
  rw [if_neg (by omega), if_neg (by omega), if_pos rfl]
  unfold lone_lexer_consume_text
  dsimp only
  have harr : bs ++ [34] ++ x :: xs = bs ++ (34 :: (x :: xs)) := by simp
  rw [harr]
  have htake2 : (bs ++ (34 :: x :: xs)).dropWhile (fun b => decide (b ≠ 34))
      = 34 :: x :: xs := by
    rw [dropWhile_append_all _ _ _ hq_p]
    exact List.dropWhile_cons_of_neg (by simp)
  rw [htake2]
  dsimp only
  rw [if_neg (by tauto)]
  rw [takeWhile_append_all _ _ _ hq_p, List.takeWhile_cons_of_neg (by simp), List.append_nil]

/-- No good value is the null pointer. -/
theorem good_not_null (v : Value) (h : GoodValue v) : v.isNull = false := by
  cases h with
  | int n _ _ => rfl
  | sym bs _ _ _ _ => rfl
  | txt bs _ => rfl
  | lst vs hne _ =>
    rcases vs with _ | ⟨w, ws⟩
    · exact absurd rfl hne
    · rfl

/-- In any separator-after context, a head byte of the rest is a hard
separator. -/
theorem sepAfter_head (v : Value) (rest : List Nat) (h : SepAfter v rest) :
    ∀ x, rest.head? = some x → x = 41 ∨ lone_lexer_match_byte x 32 = true := by
  intro x hx
  rcases h with ⟨y, ys, hr, hy⟩ | ⟨hr, _⟩
  · rw [hr] at hx
    simp only [List.head?_cons, Option.some.injEq] at hx
    rw [← hx]
    exact hy
  · rw [hr] at hx
    simp at hx

/-- A decimal digit byte is not whitespace. -/
theorem digit_not_ws (b : Nat) (h48 : 48 ≤ b) (h57 : b ≤ 57) :
    lone_lexer_match_byte b 32 = false := by
  unfold lone_lexer_match_byte
  rw [if_pos rfl]
  simp only [Bool.or_eq_false_iff, decide_eq_false_iff_not]
  omega

/-- Lexing a printed token followed by arbitrary bytes: when the dispatcher
consumes exactly the printed bytes and the first printed byte is not
whitespace, the whole input lexes to the token followed by the lexing of the
remaining bytes. -/
theorem lex_print_append (p rest : List Nat) (toks : List Value) (tok : Value)
    (hne : p ≠ [])
    (hws : ∀ c, p.head? = some c → lone_lexer_match_byte c 32 = false)
    (hstep : lone_lex_step (p ++ rest) = some (tok, rest))
    (hlex : lone_lex rest = some toks) :
    lone_lex (p ++ rest) = some (tok :: toks) := by
  rcases p with _ | ⟨c, t⟩
  · exact absurd rfl hne
  rw [List.cons_append] at hstep ⊢
  rw [lex_cons_step c (t ++ rest) rest tok (hws c rfl) hstep, hlex]
  rfl

/-- A closing parenthesis lexes to its one-byte symbol token in front of the
lexing of the remaining bytes. -/
theorem lex_rparen_cons (rest : List Nat) (toks : List Value)
    (hlex : lone_lex rest = some toks) :
    lone_lex (41 :: rest) = some (.symbol [41] :: toks) := by
  rw [lex_cons_step 41 rest rest (.symbol [41]) (by decide) (lex_step_rparen rest), hlex]
  rfl

/-- The two presentations of the list printer agree: `lone_print` on a
non-nil list is the element printer's output in parentheses (the first
iteration of `lone_print_list` is unrolled into `lone_print`). -/
theorem lone_print_eq_print_list (f r : Value) (h : (f.isNull && r.isNull) = false) :
    lone_print (.list f r) = [40] ++ lone_print_list (.list f r) ++ [41] := by
  conv_lhs => rw [lone_print.eq_def]
  conv_rhs => rw [lone_print_list.eq_def]
  dsimp only
  rw [if_neg (by simp [h]), if_neg (by simp [h])]

/-- The element printer on a one-element list prints exactly the element. -/
theorem print_list_single (w : Value) :
    lone_print_list (listOf [w]) = lone_print w := by
  show lone_print_list (.list w (.list .vnull .vnull)) = lone_print w
  conv_lhs => rw [lone_print_list]
  rw [if_neg (by simp [Value.isNull])]
  simp [Value.isNull]

/-- The element printer on a list of two or more elements prints the first
element, a space, and the element printer's output on the rest. -/
theorem print_list_cons (w u : Value) (us : List Value) (hu : u.isNull = false) :
    lone_print_list (listOf (w :: u :: us)) =
      lone_print w ++ 32 :: lone_print_list (listOf (u :: us)) := by
  show lone_print_list (.list w (.list u (listOf us))) = _
  conv_lhs => rw [lone_print_list]
  rw [if_neg (by simp [Value.isNull])]
  rw [if_neg (by simp [hu])]
  rfl

/-- The parser on a leading integer token. -/
theorem parse_tokens_go_integer (f : Nat) (n : Int) (more : List Value) :
    lone_parse_tokens_go (f + 1) (.integer n :: more) = some (some (.integer n), more) := rfl

/-- The parser on a leading text token. -/
theorem parse_tokens_go_text (f : Nat) (bs : List Nat) (more : List Value) :
    lone_parse_tokens_go (f + 1) (.text bs :: more) = some (some (.text bs), more) := rfl

/-- The parser on a leading symbol token that is not a parenthesis. -/
theorem parse_tokens_go_symbol (f : Nat) (b0 : Nat) (bs : List Nat) (more : List Value)
    (h40 : b0 ≠ 40) (h41 : b0 ≠ 41) :
    lone_parse_tokens_go (f + 1) (.symbol (b0 :: bs) :: more)
      = some (some (.symbol (b0 :: bs)), more) := by
  conv_lhs => rw [lone_parse_tokens_go.eq_def]
  dsimp only
  rw [if_neg (by simp only [List.getD_cons_zero]; exact h40),
    if_neg (by simp only [List.getD_cons_zero]; exact h41)]

/-- The list parser on a leading closing-parenthesis token finishes the
list with the accumulated elements. -/
theorem parse_list_go_close (f : Nat) (more acc : List Value) :
    lone_parse_list_go (f + 1) (.symbol [41] :: more) acc
      = some (some (listOf acc), more) := rfl

/-- One element step of the list parser: a token run that parses to one
value and does not begin with a closing-parenthesis symbol token is
consumed as one list element, appended to the accumulator. -/
theorem parse_list_go_element (tv T : List Value) (w : Value) (acc : List Value) (fuel : Nat)
    (htvne : tv ≠ [])
    (hthead : ∀ bs, tv.head? = some (.symbol bs) → bs.getD 0 0 ≠ 41)
    (htparse : lone_parse_tokens_go fuel (tv ++ T) = some (some w, T)) :
    lone_parse_list_go (fuel + 1) (tv ++ T) acc
      = lone_parse_list_go fuel T (acc ++ [w]) := by
  rcases tv with _ | ⟨t0, ts⟩
  · exact absurd rfl htvne
  rw [List.cons_append] at htparse ⊢
  cases t0
  case symbol bs =>
    have hb := hthead bs rfl
    conv_lhs => rw [lone_parse_list_go.eq_def]
    dsimp only
    rw [if_neg hb, htparse]
    simp only [Option.getD_some]
  all_goals
    conv_lhs => rw [lone_parse_list_go.eq_def]
    dsimp only
    rw [htparse]
    simp only [Option.getD_some]

/-- Round trip for an in-range integer value. -/
theorem roundtrips_integer (n : Int) (h1 : -(2 ^ 63) < n) (h2 : n < 2 ^ 63) :
    RoundTrips (.integer n) := by
  intro rest toks hsep hlex
  have hstep := lex_step_print_integer n h1 h2 rest (sepAfter_head _ rest hsep)
  obtain ⟨⟨ds, hcase, hne, hdigits⟩, _⟩ := print_integer_spec n h1 h2
  have hpne : lone_print_integer n ≠ [] := by
    rcases hcase with ⟨_, hprint⟩ | ⟨_, hprint⟩
    · rw [hprint]; exact hne
    · rw [hprint]; simp
  have hws : ∀ c, (lone_print_integer n).head? = some c →
      lone_lexer_match_byte c 32 = false := by
    intro c hc
    rcases hcase with ⟨_, hprint⟩ | ⟨_, hprint⟩
    · rw [hprint] at hc
      rcases hds : ds with _ | ⟨d0, ds'⟩
      · exact absurd hds hne
      rw [hds] at hc
      simp only [List.head?_cons, Option.some.injEq] at hc
      rw [← hc]
      have hd := hdigits d0 (by rw [hds]; simp)
      exact digit_not_ws d0 hd.1 hd.2
    · rw [hprint] at hc
      simp only [List.head?_cons, Option.some.injEq] at hc
      rw [← hc]
      decide
  refine ⟨[.integer n], by simp, ?_, ?_, ?_⟩
  · have hpr : lone_print (.integer n) = lone_print_integer n := rfl
    rw [hpr]
    exact lex_print_append (lone_print_integer n) rest toks (.integer n) hpne hws hstep hlex
  · intro bs h
    simp only [List.head?_cons, Option.some.injEq] at h
    exact Value.noConfusion h
  · intro more fuel hfuel
    rcases fuel with _ | fuel
    · simp at hfuel
    · exact parse_tokens_go_integer fuel n more

/-- Round trip for a good symbol value. -/
theorem roundtrips_symbol (bs : List Nat)
    (hne : bs ≠ [])
    (htok : ∀ b ∈ bs, isTokenByte b = true)
    (hhead : ∀ d, bs.head? = some d → ¬(48 ≤ d ∧ d ≤ 57) ∧ d ≠ 34 ∧ d ≠ 40)
    (hsign : (bs.head? = some 43 ∨ bs.head? = some 45) →
      ∀ d, bs.get? 1 = some d → ¬(48 ≤ d ∧ d ≤ 57)) :
    RoundTrips (.symbol bs) := by
  intro rest toks hsep hlex
  have hstep := lex_step_print_symbol bs rest hne htok hhead hsign (sepAfter_head _ rest hsep)
  rcases bs with _ | ⟨b0, bs0⟩
  · exact absurd rfl hne
  have hb0tok := htok b0 (by simp)
  have hb0 : b0 ≠ 41 ∧ lone_lexer_match_byte b0 32 = false := by
    unfold isTokenByte at hb0tok
    simp only [Bool.and_eq_true, Bool.not_eq_eq_eq_not, Bool.not_true,
      decide_eq_true_eq] at hb0tok
    exact hb0tok
  have hb0h := hhead b0 rfl
  refine ⟨[.symbol (b0 :: bs0)], by simp, ?_, ?_, ?_⟩
  · have hpr : lone_print (.symbol (b0 :: bs0)) = b0 :: bs0 := rfl
    rw [hpr]
    exact lex_print_append (b0 :: bs0) rest toks (.symbol (b0 :: bs0)) (by simp)
      (by intro c hc
          simp only [List.head?_cons, Option.some.injEq] at hc
          rw [← hc]
          exact hb0.2) hstep hlex
  · intro bs2 h
    simp only [List.head?_cons, Option.some.injEq, Value.symbol.injEq] at h
    rw [← h]
    simp only [List.getD_cons_zero]
    exact hb0.1
  · intro more fuel hfuel
    rcases fuel with _ | fuel
    · simp at hfuel
    · exact parse_tokens_go_symbol fuel b0 bs0 more hb0h.2.2 hb0.1

/-- Round trip for a text value without interior quotes, in a context with
a following separator byte. -/
theorem roundtrips_text (bs : List Nat) (hq : ∀ b ∈ bs, b ≠ 34) :
    RoundTrips (.text bs) := by
  intro rest toks hsep hlex
  rcases hsep with ⟨x, xs, hr, hx⟩ | ⟨_, hnt⟩
  · subst hr
    have hstep := lex_step_print_text bs x xs hq hx
    refine ⟨[.text bs], by simp, ?_, ?_, ?_⟩
    · have hpr : lone_print (.text bs) = 34 :: (bs ++ [34]) := rfl
      rw [hpr]
      exact lex_print_append (34 :: (bs ++ [34])) (x :: xs) toks (.text bs) (by simp)
        (by intro c hc
            simp only [List.head?_cons, Option.some.injEq] at hc
            rw [← hc]
            decide) hstep hlex
    · intro bs2 h
      simp only [List.head?_cons, Option.some.injEq] at h
      exact Value.noConfusion h
    · intro more fuel hfuel
      rcases fuel with _ | fuel
      · simp at hfuel
      · exact parse_tokens_go_text fuel bs more
  · exact absurd rfl (hnt bs)

/-- The printed body of a non-empty list of round-tripping elements,
followed by a closing parenthesis, lexes to a token run that the list
parser consumes into exactly those elements appended to its accumulator. -/
theorem print_list_roundtrips (vs : List Value) :
    (∀ v ∈ vs, v.isNull = false ∧ RoundTrips v) → vs ≠ [] →
    ∀ rest toks, lone_lex rest = some toks →
    ∃ tvs, lone_lex (lone_print_list (listOf vs) ++ (41 :: rest))
        = some (tvs ++ (.symbol [41] :: toks)) ∧
      ∀ more acc fuel, 2 * (tvs ++ .symbol [41] :: more).length + 2 ≤ fuel →
        lone_parse_list_go fuel (tvs ++ (.symbol [41] :: more)) acc
          = some (some (listOf (acc ++ vs)), more) := by
  induction vs with
  | nil => intro _ hne; exact absurd rfl hne
  | cons w ws ih =>
    intro hvs _ rest toks hlex
    obtain ⟨hwn, hwr⟩ := hvs w (by simp)
    cases ws with
    | nil =>
      rw [print_list_single w]
      obtain ⟨tv, htvne, htlex, hthead, htparse⟩ :=
        hwr (41 :: rest) (.symbol [41] :: toks) (Or.inl ⟨41, rest, rfl, Or.inl rfl⟩)
          (lex_rparen_cons rest toks hlex)
      refine ⟨tv, htlex, ?_⟩
      intro more acc fuel hfuel
      rcases fuel with _ | fuel
      · simp at hfuel
      have hlen : 2 * (tv ++ (.symbol [41] :: more)).length + 1 ≤ fuel := by
        simp only [List.length_append, List.length_cons] at hfuel ⊢
        omega
      rw [parse_list_go_element tv (.symbol [41] :: more) w acc fuel htvne hthead
        (htparse (.symbol [41] :: more) fuel hlen)]
      rcases fuel with _ | fuel
      · simp only [List.length_append, List.length_cons] at hfuel
        omega
      rw [parse_list_go_close fuel more (acc ++ [w])]
    | cons u us =>
      obtain ⟨hun, _⟩ := hvs u (by simp)
      rw [print_list_cons w u us hun]
      obtain ⟨tvs', hlex', hparse'⟩ :=
        ih (fun v hv => hvs v (List.mem_cons_of_mem w hv)) (by simp) rest toks hlex
      have hZ : lone_lex (32 :: (lone_print_list (listOf (u :: us)) ++ (41 :: rest)))
          = some (tvs' ++ (.symbol [41] :: toks)) := by
        rw [lex_cons_ws 32 _ (by decide)]
        exact hlex'
      obtain ⟨tv, htvne, htlex, hthead, htparse⟩ :=
        hwr (32 :: (lone_print_list (listOf (u :: us)) ++ (41 :: rest)))
          (tvs' ++ (.symbol [41] :: toks))
          (Or.inl ⟨32, _, rfl, Or.inr (by decide)⟩) hZ
      refine ⟨tv ++ tvs', ?_, ?_⟩
      · have harr : (lone_print w ++ 32 :: lone_print_list (listOf (u :: us))) ++ (41 :: rest)
            = lone_print w ++ (32 :: (lone_print_list (listOf (u :: us)) ++ (41 :: rest))) := by
          simp
        rw [harr, htlex]
        simp
      · intro more acc fuel hfuel
        rcases fuel with _ | fuel
        · simp at hfuel
        have hassoc : (tv ++ tvs') ++ (.symbol [41] :: more)
            = tv ++ (tvs' ++ (.symbol [41] :: more)) := by simp
        rw [hassoc]
        have hlen : 2 * (tv ++ (tvs' ++ (.symbol [41] :: more))).length + 1 ≤ fuel := by
          simp only [List.length_append, List.length_cons] at hfuel ⊢
          omega
        rw [parse_list_go_element tv (tvs' ++ (.symbol [41] :: more)) w acc fuel htvne hthead
          (htparse (tvs' ++ (.symbol [41] :: more)) fuel hlen)]
        have hlen2 : 2 * (tvs' ++ (.symbol [41] :: more)).length + 2 ≤ fuel := by
          rcases tv with _ | _
          · exact absurd rfl htvne
          · simp only [List.length_append, List.length_cons] at hfuel ⊢
            omega
        rw [hparse' more (acc ++ [w]) fuel hlen2]
        simp

/-- Every good value round-trips: its printed form re-lexes to a token run
that re-parses to the identical value tree, in any separator context. -/
theorem good_roundtrips (v : Value) (h : GoodValue v) : RoundTrips v := by
  induction h with
  | int n h1 h2 => exact roundtrips_integer n h1 h2
  | sym bs hne htok hhead hsign => exact roundtrips_symbol bs hne htok hhead hsign
  | txt bs hq => exact roundtrips_text bs hq
  | lst vs hne hg ih =>
    intro rest toks hsep hlex
    obtain ⟨tvs, hlexb, hparseb⟩ :=
      print_list_roundtrips vs (fun v hv => ⟨good_not_null v (hg v hv), ih v hv⟩) hne
        rest toks hlex
    rcases vs with _ | ⟨w, ws⟩
    · exact absurd rfl hne
    have hwn : w.isNull = false := good_not_null w (hg w (by simp))
    have hguard : (w.isNull && (listOf ws).isNull) = false := by
      rw [hwn]
      rfl
    have hpr : lone_print (listOf (w :: ws))
        = [40] ++ lone_print_list (listOf (w :: ws)) ++ [41] :=
      lone_print_eq_print_list w (listOf ws) hguard
    refine ⟨.symbol [40] :: (tvs ++ [.symbol [41]]), by simp, ?_, ?_, ?_⟩
    · rw [hpr]
      have harr : ([40] ++ lone_print_list (listOf (w :: ws)) ++ [41]) ++ rest
          = 40 :: (lone_print_list (listOf (w :: ws)) ++ (41 :: rest)) := by
        simp
      rw [harr,
        lex_cons_step 40 _ _ (.symbol [40]) (by decide) (lex_step_lparen _), hlexb]
      simp
    · intro bs2 hb
      simp only [List.head?_cons, Option.some.injEq, Value.symbol.injEq] at hb
      rw [← hb]
      decide
    · intro more fuel hfuel
      rcases fuel with _ | fuel
      · simp at hfuel
      have hT : (Value.symbol [40] :: (tvs ++ [.symbol [41]])) ++ more
          = .symbol [40] :: (tvs ++ (.symbol [41] :: more)) := by
        simp
      rw [hT]
      conv_lhs => rw [lone_parse_tokens_go.eq_def]
      dsimp only
      rw [if_pos (show ([40] : List Nat).getD 0 0 = 40 from rfl)]
      exact hparseb more [] fuel (by
        simp only [List.length_cons, List.length_append] at hfuel ⊢
        omega)

/-- C5 (amended): for every good value that is not a top-level text — an
integer strictly within the signed 64-bit range, a symbol that re-lexes as a
single symbol token, or a properly parenthesized non-empty list of such
values (texts without interior quotes may appear inside lists) — lexing and
parsing the printed bytes yields exactly the original value tree with no
tokens left over. -/
theorem print_reparse_roundtrip (v : Value) (hg : GoodValue v)
    (hnt : ∀ bs, v ≠ .text bs) :
    parseOneValue (lone_print v) = some (some v, []) := by
  obtain ⟨tv, htvne, htlex, hthead, htparse⟩ :=
    good_roundtrips v hg [] [] (Or.inr ⟨rfl, hnt⟩) rfl
  have h1 : lone_lex (lone_print v) = some tv := by
    simpa using htlex
  unfold parseOneValue
  rw [h1]
  unfold lone_parse_tokens
  have h2 := htparse [] (2 * tv.length + 1) (by simp)
  simpa using h2

/-- Witness for the C5 round trip at the concrete list `(1 a)`. -/
theorem print_reparse_roundtrip_witness :
    GoodValue (listOf [.integer 1, .symbol [97]]) ∧
    (∀ bs, listOf [.integer 1, .symbol [97]] ≠ .text bs) ∧
    parseOneValue (lone_print (listOf [.integer 1, .symbol [97]]))
      = some (some (listOf [.integer 1, .symbol [97]]), []) := by
  have hg : GoodValue (listOf [.integer 1, .symbol [97]]) := by
    refine .lst _ (by simp) ?_
    intro v hv
    simp only [List.mem_cons, List.not_mem_nil, or_false] at hv
    rcases hv with rfl | rfl
    · exact .int 1 (by decide) (by decide)
    · refine .sym [97] (by simp) (by decide) ?_ ?_
      · intro d hd
        simp only [List.head?_cons, Option.some.injEq] at hd
        rw [← hd]
        decide
      · intro h
        rcases h with h | h <;> simp at h
  have hnt : ∀ bs, listOf [.integer 1, .symbol [97]] ≠ .text bs := by
    intro bs h
    exact Value.noConfusion h
  exact ⟨hg, hnt, print_reparse_roundtrip _ hg hnt⟩

/-- C5 counterexample to the unrestricted claim, on three parse-able
inputs. First, `(())` parses to a list holding nil, but nil prints as
nothing, so the tree reprints as `()` and re-parses to plain nil. Second,
the most negative 64-bit integer parses from its decimal spelling, but the
printer's negation wraps, emitting `-(`, which re-lexes as the symbol
`-(`. Third, a top-level quoted text followed by a newline parses, but its
printed form ends at the closing quote and the lexer's separator check then
reads past the end of the input (undefined behaviour, modelled as lexing
without a token list), so re-parsing yields no value at all. -/
theorem roundtrip_fails_for_nil_longmin_text :
    (parseOneValue [40, 40, 41, 41] = some (some (listOf [nilValue]), []) ∧
      parseOneValue (lone_print (listOf [nilValue])) = some (some nilValue, []) ∧
      nilValue ≠ listOf [nilValue]) ∧
    (parseOneValue
        [45, 57, 50, 50, 51, 51, 55, 50, 48, 51, 54, 56, 53, 52, 55, 55, 53, 56, 48, 56]
        = some (some (.integer (-(2 ^ 63))), []) ∧
      parseOneValue (lone_print (.integer (-(2 ^ 63))))
        = some (some (.symbol [45, 40]), []) ∧
      Value.symbol [45, 40] ≠ .integer (-(2 ^ 63))) ∧
    (parseOneValue [34, 104, 105, 34, 10] = some (some (.text [104, 105]), []) ∧
      parseOneValue (lone_print (.text [104, 105])) = none) := by
  refine ⟨⟨rfl, rfl, ?_⟩, ⟨rfl, rfl, ?_⟩, rfl, rfl⟩
  · intro h
    injection h with h1 h2
    exact Value.noConfusion h1
  · intro h
    exact Value.noConfusion h

end Lone
